import Mathlib

/-!
Shallow embedding of the diagram-driven task-graph executor of
`app/services/diagram_service.py` (function `execute_process_from_diagram`),
together with the graph construction it performs via `networkx`
(`nx.DiGraph.add_edge`, `nx.topological_sort`) and the observable
side effects it produces (status broadcasts, task-executor invocations).

Modelling conventions:
* Python strings are `String`; string `+=` is `String.append` on the right.
* The wire-format dictionaries (`Node`, `Edge` of the diagram document) are
  records; the engine only reads the fields modelled here.
* The external task-executor (`Crew.kickoff_async` / `task.output.raw`) is an
  oracle `TaskExec : String → String → String → Option String` taking the
  invoking agent's current backstory, the task description and the expected
  output; `none` models an invocation that raises (the recoverable failure
  caught at the inner `except`).
* `manager.broadcast` catches all its errors internally (see
  `app/websocket/manager.py`), so it is modelled as an always-succeeding
  append to an event log.
* File-based backstory enrichment (summarize / rag, lines 487-510) only
  extends the initial backstory before the run; it is abstracted as an
  oracle `enrich : Node → String` appended to the declared backstory
  (empty when the node has no file).
* Python `KeyError` on `d[k]` is modelled as `Except.error` carrying
  `str(KeyError(k)) = "'" ++ k ++ "'"`; the outer `except Exception`
  turns it into the `{status: "error", message}` dictionary.
-/

/-- Wire-format node of the diagram document (`data['nodes']` entries). -/
structure DNode where
  key : String
  role : String
  goal : String
  backstory : String
  deriving Repr, DecidableEq

/-- Wire-format link of the diagram document (`data['links']` entries). -/
structure DLink where
  src : String
  dst : String
  description : String
  expected_output : String
  deriving Repr, DecidableEq

/-- The diagram document consumed by `execute_process_from_diagram`. -/
structure Diagram where
  dnodes : List DNode
  dlinks : List DLink
  deriving Repr, DecidableEq

/-- Mutable per-run agent record (`crewai.Agent`): only `role` and the
growing `backstory` are observable to the engine's logic. -/
structure AgentRec where
  role : String
  goal : String
  backstory : String
  deriving Repr, DecidableEq

/-! ### Association-list dictionaries

Python `dict` with string keys: insertion order preserved, later assignment
to an existing key overwrites in place. -/

/-- Python dict assignment `d[k] = v`: overwrite in place, else append. -/
def dictInsert (d : List (String × α)) (k : String) (v : α) : List (String × α) :=
  match d with
  | [] => [(k, v)]
  | (k', v') :: rest =>
      if k' = k then (k, v) :: rest
      else (k', v') :: dictInsert rest k v

/-- Python dict lookup `d[k]`, `none` on missing key. -/
def dictGet (d : List (String × α)) (k : String) : Option α :=
  match d with
  | [] => none
  | (k', v) :: rest => if k' = k then some v else dictGet rest k

/-- Update the value at key `k` in place (no-op when absent). -/
def dictModify (d : List (String × α)) (k : String) (f : α → α) : List (String × α) :=
  match d with
  | [] => []
  | (k', v) :: rest =>
      if k' = k then (k', f v) :: rest
      else (k', v) :: dictModify rest k f

/-! ### The task graph (`nx.DiGraph` restricted to what the engine uses)

`add_edge(u, v, **data)` inserts `u` then `v` into the node dict when new,
and inserts the edge `(u, v)` with its data, overwriting the data when the
edge already exists (parallel `add_edge` calls collapse). -/

/-- A directed edge of the task graph with its task payload. -/
structure GEdge where
  src : String
  dst : String
  description : String
  expected_output : String
  deriving Repr, DecidableEq

/-- The task graph: node list in insertion order, edge list in insertion
order with at most one edge per `(src, dst)` pair. -/
structure Graph where
  gnodes : List String
  gedges : List GEdge
  deriving Repr, DecidableEq

def Graph.empty : Graph := ⟨[], []⟩

/-- Add a node if not already present (`DiGraph.add_node` as called from
`add_edge`). -/
def addNode (g : Graph) (n : String) : Graph :=
  if n ∈ g.gnodes then g else { g with gnodes := g.gnodes ++ [n] }

/-- Overwrite the payload of the existing `(src, dst)` edge. -/
def updateEdgeData (es : List GEdge) (e : GEdge) : List GEdge :=
  es.map (fun e' => if e'.src = e.src ∧ e'.dst = e.dst then e else e')

/-- Embeds `task_graph.add_edge(link['from'], link['to'], description=…,
expected_output=…)` (lines 525-531). -/
def addEdge (g : Graph) (e : GEdge) : Graph :=
  let g := addNode (addNode g e.src) e.dst
  if g.gedges.any (fun e' => e'.src = e.src && e'.dst = e.dst) then
    { g with gedges := updateEdgeData g.gedges e }
  else
    { g with gedges := g.gedges ++ [e] }

/-- Build the task graph from the diagram's links (lines 524-531). -/
def buildGraph (links : List DLink) : Graph :=
  links.foldl (fun g l => addEdge g ⟨l.src, l.dst, l.description, l.expected_output⟩)
    Graph.empty

/-- Embeds `task_graph.in_degree(v)` (parallel edges already collapsed). -/
def inDegree (g : Graph) (v : String) : Nat :=
  (g.gedges.filter (fun e => e.dst = v)).length

/-- Embeds `task_graph.out_edges(u, data=True)`: outgoing edges of `u` in
insertion order. -/
def outEdges (g : Graph) (u : String) : List GEdge :=
  g.gedges.filter (fun e => e.src = u)

/-! ### Kahn's algorithm (`nx.topological_sort`)

networkx's generator keeps `indegree_map = {v: d for v, d in G.in_degree()
if d > 0}` and a worklist `zero_indegree` of in-degree-0 nodes, pops from
the end (LIFO), decrements the popped node's children and moves those that
reach zero onto the worklist. We keep the worklist reversed (head = next to
pop); the emitted sequence is identical. -/

/-- Decrement the stored in-degree of `c`; when it reaches zero the entry is
deleted and `c` is reported as newly ready. -/
def decOne : List (String × Nat) → String → List (String × Nat) × Option String
  | [], _ => ([], none)
  | (k, d) :: rest, c =>
      if k = c then
        if d = 1 then (rest, some c)
        else ((k, d - 1) :: rest, none)
      else
        let r := decOne rest c
        ((k, d) :: r.1, r.2)

/-- Decrement each child in order, collecting the newly ready nodes in
the order they reached zero. -/
def decMany : List (String × Nat) → List String → List (String × Nat) × List String
  | indeg, [] => (indeg, [])
  | indeg, c :: cs =>
      let r1 := decOne indeg c
      let r2 := decMany r1.1 cs
      (r2.1, r1.2.toList ++ r2.2)

theorem decOne_length (indeg : List (String × Nat)) (c : String) :
    (decOne indeg c).1.length + (decOne indeg c).2.toList.length = indeg.length := by
  induction indeg with
  | nil => simp [decOne]
  | cons hd tl ih =>
      obtain ⟨k, d⟩ := hd
      simp only [decOne]
      split
      · split <;> simp
      · simp only [List.length_cons]
        omega

theorem decMany_length (indeg : List (String × Nat)) (cs : List String) :
    (decMany indeg cs).1.length + (decMany indeg cs).2.length = indeg.length := by
  induction cs generalizing indeg with
  | nil => simp [decMany]
  | cons c cs ih =>
      simp only [decMany, List.length_append]
      have h1 := decOne_length indeg c
      have h2 := ih (decOne indeg c).1
      omega

/-- The main loop of `nx.topological_sort`: pop a ready node, decrement its
children, push the newly ready ones (LIFO), yield the node.  The `fuel`
argument makes the recursion structural; one unit is spent per emitted
node, and the caller passes the loop's exact iteration bound (each
iteration moves one node out of the worklist/in-degree map, so
`indeg.length + stack.length` units always suffice — see `kahn_master`). -/
def kahnLoop (g : Graph) : Nat → List (String × Nat) → List String → List String
  | 0, _, _ => []
  | _ + 1, _, [] => []
  | fuel + 1, indeg, n :: rest =>
      let r := decMany indeg ((outEdges g n).map (fun e => e.dst))
      n :: kahnLoop g fuel r.1 (r.2.reverse ++ rest)

/-- Initial in-degree map: nodes with positive in-degree, in node order. -/
def initIndeg (g : Graph) : List (String × Nat) :=
  (g.gnodes.filter (fun v => inDegree g v ≠ 0)).map (fun v => (v, inDegree g v))

/-- Initial worklist: in-degree-0 nodes; reversed because networkx pops
from the end of the list built in node order. -/
def initStack (g : Graph) : List String :=
  (g.gnodes.filter (fun v => inDegree g v = 0)).reverse

/-- Embeds `list(nx.topological_sort(task_graph))`, as far as it gets: the emitted
prefix.  networkx raises `NetworkXUnfeasible` exactly when this prefix
misses some node (its `indegree_map` is nonempty at the end). -/
def kahnOrder (g : Graph) : List String :=
  kahnLoop g ((initIndeg g).length + (initStack g).length) (initIndeg g) (initStack g)

/-- Holds when `nx.topological_sort` completed without `NetworkXUnfeasible`. -/
def kahnSucceeds (g : Graph) : Bool :=
  (kahnOrder g).length = g.gnodes.length

/-! ### Observable effects of the execution loop -/

/-- A status broadcast (`manager.broadcast({"type": "agent_highlight", …})`). -/
inductive Event
  | active (agentId : String) (taskDescription : String)
  | inactive (agentId : String)
  deriving Repr, DecidableEq

/-- One invocation of the external task-executor (`crew.kickoff_async`),
with the arguments it saw and its outcome (`none` = the invocation raised). -/
structure Call where
  agentKey : String
  context : String
  description : String
  expected_output : String
  output : Option String
  deriving Repr, DecidableEq

/-- The external task-executor capability: (agent backstory, task
description, expected output) ↦ produced text, or `none` on failure. -/
abbrev TaskExec := String → String → String → Option String

/-- Mutable state of one run of the execution loop. -/
structure RunState where
  agents : List (String × AgentRec)
  cache : List (String × String)
  results : List String
  events : List Event
  calls : List Call
  deriving Repr, DecidableEq

def pushEvent (st : RunState) (ev : Event) : RunState :=
  { st with events := st.events ++ [ev] }

def pushCall (st : RunState) (c : Call) : RunState :=
  { st with calls := st.calls ++ [c] }

/-- The string `f"\n\nRésultat de {from_agent.role} : {result}"` (lines 565, 595, 610). -/
def resultMarker (role result : String) : String :=
  "\n\nRésultat de " ++ role ++ " : " ++ result

/-- The `formatted_result` string (lines 603-608); `task.output.agent` is the invoking
agent's role and `task.output.description` the task description. -/
def formattedResult (role desc result : String) : String :=
  "\n\n***\n\n" ++ "\n\n## " ++ role ++ "\n\n" ++ "\n\n### " ++ desc ++ "\n\n" ++
    "\n\n" ++ result ++ "\n\n"

/-- Append a suffix to the backstory of the agent stored at `key`
(`agent.backstory += suffix`). -/
def appendBackstory (st : RunState) (key suffix : String) : RunState :=
  { st with agents :=
      dictModify st.agents key (fun a => { a with backstory := a.backstory ++ suffix }) }

/-- The message `str(KeyError(k))` as produced by Python. -/
def keyErr (k : String) : String := "'" ++ k ++ "'"

/-- Body of the per-edge inner `try` (lines 560-618).  The reuse branch
appends the cached result to the downstream backstory, then broadcasts
active/inactive.  The fresh branch broadcasts active, invokes the executor,
and on success stores the cache entry, appends the marker to the downstream
backstory, broadcasts inactive, appends the marker a second time (lines 595
and 610 both run), and appends the transcript entry; on failure the caught
exception leaves everything but the broadcast/trace untouched. -/
def edgeBody (exec : TaskExec) (st : RunState) (e : GEdge) (fa : AgentRec) : RunState :=
  match dictGet st.cache e.src with
  | some result =>
      let st := appendBackstory st e.dst (resultMarker fa.role result)
      let st := pushEvent st (.active e.src ("Réutilisation du résultat de " ++ fa.role))
      pushEvent st (.inactive e.src)
  | none =>
      let st := pushEvent st (.active e.src e.description)
      match exec fa.backstory e.description e.expected_output with
      | some result =>
          let st := pushCall st ⟨e.src, fa.backstory, e.description,
            e.expected_output, some result⟩
          let st := { st with cache := dictInsert st.cache e.src result }
          let st := appendBackstory st e.dst (resultMarker fa.role result)
          let st := pushEvent st (.inactive e.src)
          let st := appendBackstory st e.dst (resultMarker fa.role result)
          { st with results := st.results ++ [formattedResult fa.role e.description result] }
      | none =>
          pushCall st ⟨e.src, fa.backstory, e.description, e.expected_output, none⟩

/-- Process one outgoing edge (lines 549-618): the `agents_dict` lookups sit
outside the inner `try`, so their `KeyError` escapes to the outer handler. -/
def handleEdge (exec : TaskExec) (st : RunState) (e : GEdge) : Except String RunState :=
  match dictGet st.agents e.src with
  | none => .error (keyErr e.src)
  | some fa =>
      match dictGet st.agents e.dst with
      | none => .error (keyErr e.dst)
      | some _ => .ok (edgeBody exec st e fa)

/-- Process the outgoing edges of one node in order; an escaping exception
aborts the loop, and the state at the raise point (= before the offending
edge, since the lookups precede every mutation) is carried along. -/
def runEdges (exec : TaskExec) : RunState → List GEdge → RunState × Option String
  | st, [] => (st, none)
  | st, e :: es =>
      match handleEdge exec st e with
      | .error m => (st, some m)
      | .ok st' => runEdges exec st' es

/-- Dispatch one node (lines 545-547): `nodes[node_key]` may raise
`KeyError`, then the node's outgoing edges are processed in order. -/
def handleNode (exec : TaskExec) (nodesDict : List (String × DNode)) (g : Graph)
    (st : RunState) (nk : String) : RunState × Option String :=
  match dictGet nodesDict nk with
  | none => (st, some (keyErr nk))
  | some _ => runEdges exec st (outEdges g nk)

/-- The dispatch loop over the topological order (lines 545-618). -/
def runNodes (exec : TaskExec) (nodesDict : List (String × DNode)) (g : Graph) :
    RunState → List String → RunState × Option String
  | st, [] => (st, none)
  | st, nk :: nks =>
      match handleNode exec nodesDict g st nk with
      | (st', some m) => (st', some m)
      | (st', none) => runNodes exec nodesDict g st' nks

/-! ### The run entry point -/

/-- The result dictionary returned to the caller.  The Python error
dictionary carries only `status` and `message`; its missing keys are
modelled as `[]` / `0`. -/
structure RunResult where
  status : String
  message : String
  backstories : List (String × String)
  branches_count : Nat
  deriving Repr, DecidableEq

def errorResult (m : String) : RunResult := ⟨"error", m, [], 0⟩

/-- Message of the cycle error (lines 537-540). -/
def cycleMsg : String :=
  "Le graphe contient des cycles, impossible de déterminer un ordre des tâches."

/-- Embeds `nodes = {node['key']: node for node in data['nodes']}` (line 468). -/
def nodesDictOf (d : Diagram) : List (String × DNode) :=
  d.dnodes.foldl (fun acc n => dictInsert acc n.key n) []

/-- Agent initialisation (lines 476-510): role/goal/backstory from the
node, the backstory extended by the external file-summary enrichment
(empty when the node declares no file). -/
def initAgents (enrich : DNode → String) (d : Diagram) : List (String × AgentRec) :=
  d.dnodes.foldl (fun acc n =>
    dictInsert acc n.key ⟨n.role, n.goal, n.backstory ++ enrich n⟩) []

/-- Run state at the start of the dispatch loop: initialised agents, empty
cache/transcript/call trace, and the initial per-node `inactive`
broadcasts (lines 513-519). -/
def initState (enrich : DNode → String) (d : Diagram) : RunState :=
  ⟨initAgents enrich d, [], [], d.dnodes.map (fun n => Event.inactive n.key), []⟩

/-- The run's outcome: the returned dictionary plus the final observable
state (broadcast log and invocation trace) for stating properties. -/
structure RunOutput where
  result : RunResult
  final : RunState
  deriving Repr, DecidableEq

/-- Embeds `execute_process_from_diagram` (lines 452-637): build the graph,
topologically sort (cycle ⇒ error return, lines 533-540), compute the
roots (line 542), run the dispatch loop, and assemble the success
dictionary (lines 620-631); an exception escaping the loop is caught by
the outer handler and returned as `{status: "error", message: str(e)}`
(lines 633-637). -/
def executeProcess (exec : TaskExec) (enrich : DNode → String) (d : Diagram) : RunOutput :=
  let nd := nodesDictOf d
  let st0 := initState enrich d
  let g := buildGraph d.dlinks
  if kahnSucceeds g then
    let roots := g.gnodes.filter (fun v => inDegree g v = 0)
    match runNodes exec nd g st0 (kahnOrder g) with
    | (st, some m) => ⟨errorResult m, st⟩
    | (st, none) =>
        ⟨⟨"success", String.intercalate "\n" st.results,
          st.agents.map (fun p => (p.2.role, p.2.backstory)), roots.length⟩, st⟩
  else
    ⟨errorResult cycleMsg, st0⟩

/-! ### Dictionary lemmas -/

theorem dictGet_dictInsert (d : List (String × α)) (k : String) (v : α) (q : String) :
    dictGet (dictInsert d k v) q = if q = k then some v else dictGet d q := by
  induction d with
  | nil =>
      by_cases h : q = k
      · simp [dictInsert, dictGet, h]
      · simp [dictInsert, dictGet, h, Ne.symm h]
  | cons hd tl ih =>
      obtain ⟨k1, v1⟩ := hd
      simp only [dictInsert]
      by_cases h1 : k1 = k
      · subst h1
        by_cases h2 : q = k1
        · simp [dictGet, h2]
        · simp [dictGet, h2, Ne.symm h2]
      · simp only [if_neg h1, dictGet]
        by_cases h2 : k1 = q
        · subst h2
          simp [h1]
        · simp [h2, ih]

theorem dictGet_dictModify (d : List (String × α)) (k : String) (f : α → α) (q : String) :
    dictGet (dictModify d k f) q =
      if q = k then (dictGet d k).map f else dictGet d q := by
  induction d with
  | nil => simp [dictModify, dictGet]
  | cons hd tl ih =>
      obtain ⟨k1, v1⟩ := hd
      simp only [dictModify]
      by_cases h1 : k1 = k
      · subst h1
        by_cases h2 : q = k1
        · simp [dictGet, h2]
        · simp [dictGet, h2, Ne.symm h2]
      · simp only [if_neg h1, dictGet]
        by_cases h2 : k1 = q
        · subst h2
          simp [h1]
        · simp [h2, ih]

theorem dictGet_isSome_iff (d : List (String × α)) (k : String) :
    (dictGet d k).isSome ↔ k ∈ d.map Prod.fst := by
  induction d with
  | nil => simp [dictGet]
  | cons hd tl ih =>
      obtain ⟨k1, v1⟩ := hd
      simp only [dictGet, List.map_cons, List.mem_cons]
      by_cases h : k1 = k
      · simp [h]
      · simp [h, ih, Ne.symm h]

theorem dictGet_map_pair (m : List String) (f : String → Nat) (k : String) :
    dictGet (m.map (fun v => (v, f v))) k = if k ∈ m then some (f k) else none := by
  induction m with
  | nil => simp [dictGet]
  | cons v rest ih =>
      simp only [List.map_cons, dictGet, List.mem_cons]
      by_cases h : v = k
      · subst h; simp
      · simp [h, ih, Ne.symm h]

/-! ### Graph well-formedness -/

/-- Structural invariants of every graph built by `buildGraph`: node keys
are unique, every edge's endpoints are nodes, and there is at most one
edge per ordered endpoint pair. -/
structure GraphWF (g : Graph) : Prop where
  nodesNodup : g.gnodes.Nodup
  edgesSrc : ∀ e ∈ g.gedges, e.src ∈ g.gnodes
  edgesDst : ∀ e ∈ g.gedges, e.dst ∈ g.gnodes
  edgesKey : (g.gedges.map (fun e => (e.src, e.dst))).Nodup

theorem addNode_gnodes_mono (g : Graph) (n : String) :
    ∀ v ∈ g.gnodes, v ∈ (addNode g n).gnodes := by
  intro v hv
  unfold addNode
  split <;> simp [hv]

theorem mem_addNode (g : Graph) (n : String) :
    ∀ v, v ∈ (addNode g n).gnodes ↔ (v ∈ g.gnodes ∨ v = n) := by
  intro v
  unfold addNode
  split
  · next h => constructor
              · exact fun hv => Or.inl hv
              · rintro (hv | rfl)
                · exact hv
                · exact h
  · simp [or_comm]

theorem addNode_gedges (g : Graph) (n : String) : (addNode g n).gedges = g.gedges := by
  unfold addNode; split <;> rfl

theorem addNode_nodup (g : Graph) (n : String) (h : g.gnodes.Nodup) :
    (addNode g n).gnodes.Nodup := by
  unfold addNode
  split
  · exact h
  · next hn => simp [List.nodup_append, h, hn]

theorem updateEdgeData_keys (es : List GEdge) (e : GEdge) :
    (updateEdgeData es e).map (fun x => (x.src, x.dst)) =
      es.map (fun x => (x.src, x.dst)) := by
  unfold updateEdgeData
  rw [List.map_map]
  apply List.map_congr_left
  intro a _
  simp only [Function.comp]
  split
  · next h => simp [h.1, h.2]
  · rfl

theorem mem_updateEdgeData (es : List GEdge) (e x : GEdge) (hx : x ∈ updateEdgeData es e) :
    x ∈ es ∨ x = e := by
  unfold updateEdgeData at hx
  obtain ⟨a, ha, hax⟩ := List.mem_map.mp hx
  by_cases h : a.src = e.src ∧ a.dst = e.dst
  · right; rw [← hax]; simp [h]
  · left; rw [← hax]; simpa [h] using ha

theorem addEdge_wf (g : Graph) (e : GEdge) (h : GraphWF g) : GraphWF (addEdge g e) := by
  have hsrc : e.src ∈ (addNode (addNode g e.src) e.dst).gnodes := by
    rw [mem_addNode]
    exact Or.inl ((mem_addNode g e.src e.src).mpr (Or.inr rfl))
  have hdst : e.dst ∈ (addNode (addNode g e.src) e.dst).gnodes := by
    rw [mem_addNode]; exact Or.inr rfl
  have hmono : ∀ v ∈ g.gnodes, v ∈ (addNode (addNode g e.src) e.dst).gnodes := by
    intro v hv
    exact addNode_gnodes_mono _ _ _ (addNode_gnodes_mono _ _ _ hv)
  have hnd : (addNode (addNode g e.src) e.dst).gnodes.Nodup :=
    addNode_nodup _ _ (addNode_nodup _ _ h.nodesNodup)
  have hge : (addNode (addNode g e.src) e.dst).gedges = g.gedges := by
    rw [addNode_gedges, addNode_gedges]
  unfold addEdge
  simp only [hge]
  split
  · next hany =>
      refine ⟨hnd, ?_, ?_, ?_⟩
      · intro x hx
        rcases mem_updateEdgeData g.gedges e x hx with hm | rfl
        · exact hmono _ (h.edgesSrc x hm)
        · exact hsrc
      · intro x hx
        rcases mem_updateEdgeData g.gedges e x hx with hm | rfl
        · exact hmono _ (h.edgesDst x hm)
        · exact hdst
      · rw [updateEdgeData_keys]; exact h.edgesKey
  · next hany =>
      refine ⟨hnd, ?_, ?_, ?_⟩
      · intro x hx
        rcases List.mem_append.mp hx with hm | hm
        · exact hmono _ (h.edgesSrc x hm)
        · rw [List.mem_singleton.mp hm]; exact hsrc
      · intro x hx
        rcases List.mem_append.mp hx with hm | hm
        · exact hmono _ (h.edgesDst x hm)
        · rw [List.mem_singleton.mp hm]; exact hdst
      · rw [List.map_append]
        simp only [List.map_cons, List.map_nil]
        rw [List.nodup_append]
        refine ⟨h.edgesKey, List.nodup_singleton _, ?_⟩
        intro p hp
        simp only [List.mem_singleton]
        intro hpe
        apply hany
        rw [List.any_eq_true]
        obtain ⟨a, ha, hak⟩ := List.mem_map.mp hp
        refine ⟨a, ha, ?_⟩
        rw [hpe] at hak
        have h1 : a.src = e.src := congrArg Prod.fst hak
        have h2 : a.dst = e.dst := congrArg Prod.snd hak
        simp [h1, h2]

theorem buildGraph_wf (links : List DLink) : GraphWF (buildGraph links) := by
  unfold buildGraph
  have base : GraphWF Graph.empty := by
    refine ⟨?_, ?_, ?_, ?_⟩ <;> simp [Graph.empty]
  generalize Graph.empty = g0 at base ⊢
  induction links generalizing g0 with
  | nil => exact base
  | cons l rest ih => exact ih _ (addEdge_wf _ _ base)

/-! ### Membership characterisations of the built graph -/

theorem mem_addEdge_gnodes (g : Graph) (e : GEdge) (v : String) :
    v ∈ (addEdge g e).gnodes ↔ (v ∈ g.gnodes ∨ v = e.src ∨ v = e.dst) := by
  have hn : (addEdge g e).gnodes = (addNode (addNode g e.src) e.dst).gnodes := by
    unfold addEdge
    dsimp only
    split <;> rfl
  rw [hn, mem_addNode, mem_addNode]
  tauto

/-- Edge presence by endpoint pair is what `addEdge` preserves exactly. -/
theorem mem_addEdge_key (g : Graph) (e : GEdge) (u v : String) :
    (∃ x ∈ (addEdge g e).gedges, x.src = u ∧ x.dst = v) ↔
      ((∃ x ∈ g.gedges, x.src = u ∧ x.dst = v) ∨ (e.src = u ∧ e.dst = v)) := by
  have hge : (addNode (addNode g e.src) e.dst).gedges = g.gedges := by
    rw [addNode_gedges, addNode_gedges]
  unfold addEdge
  simp only [hge]
  split
  · next hany =>
      constructor
      · rintro ⟨x, hx, hxu, hxv⟩
        rcases mem_updateEdgeData g.gedges e x hx with hm | rfl
        · exact Or.inl ⟨x, hm, hxu, hxv⟩
        · exact Or.inr ⟨hxu, hxv⟩
      · rintro (⟨x, hx, hxu, hxv⟩ | ⟨hu, hv⟩)
        · by_cases hk : x.src = e.src ∧ x.dst = e.dst
          · refine ⟨e, ?_, by rw [← hk.1, hxu], by rw [← hk.2, hxv]⟩
            unfold updateEdgeData
            rw [List.mem_map]
            exact ⟨x, hx, by simp [hk]⟩
          · refine ⟨x, ?_, hxu, hxv⟩
            unfold updateEdgeData
            rw [List.mem_map]
            exact ⟨x, hx, by simp [hk]⟩
        · rw [List.any_eq_true] at hany
          obtain ⟨a, ha, hak⟩ := hany
          simp only [Bool.and_eq_true, decide_eq_true_eq] at hak
          by_cases hk : a.src = e.src ∧ a.dst = e.dst
          · refine ⟨e, ?_, hu, hv⟩
            unfold updateEdgeData
            rw [List.mem_map]
            exact ⟨a, ha, by simp [hk]⟩
          · exact absurd hak hk
  · constructor
    · rintro ⟨x, hx, hxu, hxv⟩
      rcases List.mem_append.mp hx with hm | hm
      · exact Or.inl ⟨x, hm, hxu, hxv⟩
      · rw [List.mem_singleton.mp hm] at hxu hxv
        exact Or.inr ⟨hxu, hxv⟩
    · rintro (⟨x, hx, hxu, hxv⟩ | ⟨hu, hv⟩)
      · exact ⟨x, List.mem_append.mpr (Or.inl hx), hxu, hxv⟩
      · exact ⟨e, List.mem_append.mpr (Or.inr (List.mem_singleton.mpr rfl)), hu, hv⟩

theorem mem_buildGraph_gnodes (links : List DLink) (v : String) :
    v ∈ (buildGraph links).gnodes ↔ ∃ l ∈ links, v = l.src ∨ v = l.dst := by
  unfold buildGraph
  have base : v ∈ Graph.empty.gnodes ↔ False := by simp [Graph.empty]
  have main : ∀ g0 : Graph,
      v ∈ (links.foldl (fun g l => addEdge g ⟨l.src, l.dst, l.description, l.expected_output⟩) g0).gnodes ↔
        (v ∈ g0.gnodes ∨ ∃ l ∈ links, v = l.src ∨ v = l.dst) := by
    induction links with
    | nil => intro g0; simp
    | cons l rest ih =>
        intro g0
        simp only [List.foldl_cons, ih, mem_addEdge_gnodes, List.mem_cons]
        constructor
        · rintro ((h | h | h) | ⟨x, hx, hor⟩)
          · exact Or.inl h
          · exact Or.inr ⟨l, Or.inl rfl, Or.inl h⟩
          · exact Or.inr ⟨l, Or.inl rfl, Or.inr h⟩
          · exact Or.inr ⟨x, Or.inr hx, hor⟩
        · rintro (h | ⟨x, (rfl | hx), hor⟩)
          · exact Or.inl (Or.inl h)
          · rcases hor with h | h
            · exact Or.inl (Or.inr (Or.inl h))
            · exact Or.inl (Or.inr (Or.inr h))
          · exact Or.inr ⟨x, hx, hor⟩
  rw [main, base]
  simp

/-- Edge presence by endpoint pair in the built graph, in terms of the
link list. -/
theorem mem_buildGraph_key (links : List DLink) (u v : String) :
    (∃ x ∈ (buildGraph links).gedges, x.src = u ∧ x.dst = v) ↔
      ∃ l ∈ links, l.src = u ∧ l.dst = v := by
  unfold buildGraph
  have main : ∀ g0 : Graph,
      (∃ x ∈ (links.foldl (fun g l => addEdge g ⟨l.src, l.dst, l.description, l.expected_output⟩) g0).gedges,
        x.src = u ∧ x.dst = v) ↔
        ((∃ x ∈ g0.gedges, x.src = u ∧ x.dst = v) ∨ ∃ l ∈ links, l.src = u ∧ l.dst = v) := by
    induction links with
    | nil => intro g0; simp
    | cons l rest ih =>
        intro g0
        simp only [List.foldl_cons, ih, mem_addEdge_key, List.mem_cons]
        constructor
        · rintro ((h | h) | ⟨x, hx, hk⟩)
          · exact Or.inl h
          · exact Or.inr ⟨l, Or.inl rfl, h⟩
          · exact Or.inr ⟨x, Or.inr hx, hk⟩
        · rintro (h | ⟨x, (rfl | hx), hk⟩)
          · exact Or.inl (Or.inl h)
          · exact Or.inl (Or.inr hk)
          · exact Or.inr ⟨x, hx, hk⟩
  rw [main]
  simp [Graph.empty]

/-! ### Cycles -/

/-- Presence of a directed edge from `u` to `v` in the task graph. -/
def hasEdge (g : Graph) (u v : String) : Prop :=
  ∃ e ∈ g.gedges, e.src = u ∧ e.dst = v

instance (g : Graph) (u v : String) : Decidable (hasEdge g u v) :=
  inferInstanceAs (Decidable (∃ e ∈ g.gedges, e.src = u ∧ e.dst = v))

/-- The node list `c = [v₀, …, vₖ]` is a directed cycle of `g`:
`v₀ → v₁ → … → vₖ → v₀`. -/
def CycleIn (g : Graph) (c : List String) : Prop :=
  match c with
  | [] => False
  | v :: rest => List.Chain (hasEdge g) v (rest ++ [v])

instance (g : Graph) (c : List String) : Decidable (CycleIn g c) :=
  match c with
  | [] => isFalse (fun h => h)
  | v :: rest => inferInstanceAs (Decidable (List.Chain (hasEdge g) v (rest ++ [v])))

/-- The task graph has no directed cycle. -/
def Acyclic (g : Graph) : Prop := ¬ ∃ c, CycleIn g c

/-- With at most one edge per endpoint pair, the per-pair filter count is
0 or 1, matching `hasEdge`. -/
theorem count_by_key (es : List GEdge)
    (h : (es.map (fun e => (e.src, e.dst))).Nodup) (u v : String) :
    (es.filter (fun e => e.src = u && e.dst = v)).length =
      (if ∃ e ∈ es, e.src = u ∧ e.dst = v then 1 else 0) := by
  induction es with
  | nil => simp
  | cons x rest ih =>
      simp only [List.map_cons, List.nodup_cons] at h
      obtain ⟨hx, hrest⟩ := h
      by_cases hk : x.src = u ∧ x.dst = v
      · have hfilter : rest.filter (fun e => e.src = u && e.dst = v) = [] := by
          rw [List.filter_eq_nil_iff]
          intro a ha
          simp only [Bool.and_eq_true, decide_eq_true_eq, not_and]
          intro hau hav
          apply hx
          rw [List.mem_map]
          exact ⟨a, ha, by rw [hau, hav, hk.1, hk.2]⟩
        have hcond : (∃ e ∈ x :: rest, e.src = u ∧ e.dst = v) := ⟨x, by simp, hk⟩
        simp [List.filter_cons, hk.1, hk.2, hfilter, hcond]
      · have hstep : (x :: rest).filter (fun e => e.src = u && e.dst = v) =
            rest.filter (fun e => e.src = u && e.dst = v) := by
          rw [List.filter_cons]
          simp only [Bool.and_eq_true, decide_eq_true_eq]
          rw [if_neg]
          simpa using hk
        rw [hstep, ih hrest]
        by_cases hc : ∃ e ∈ rest, e.src = u ∧ e.dst = v
        · have hc2 : ∃ e ∈ x :: rest, e.src = u ∧ e.dst = v := by
            obtain ⟨e, he, hek⟩ := hc
            exact ⟨e, List.mem_cons_of_mem _ he, hek⟩
          rw [if_pos hc, if_pos hc2]
        · have hc2 : ¬ ∃ e ∈ x :: rest, e.src = u ∧ e.dst = v := by
            rintro ⟨e, he, hek⟩
            rcases List.mem_cons.mp he with rfl | he2
            · exact hk hek
            · exact hc ⟨e, he2, hek⟩
          rw [if_neg hc, if_neg hc2]

/-! ### Characterisation of the decrement step -/

theorem kahnLoop_zero (g : Graph) (indeg : List (String × Nat)) (stack : List String) :
    kahnLoop g 0 indeg stack = [] := rfl

theorem kahnLoop_nil (g : Graph) (fuel : Nat) (indeg : List (String × Nat)) :
    kahnLoop g (fuel + 1) indeg [] = [] := rfl

theorem kahnLoop_cons (g : Graph) (fuel : Nat) (indeg : List (String × Nat)) (n : String)
    (rest : List String) :
    kahnLoop g (fuel + 1) indeg (n :: rest) =
      n :: kahnLoop g fuel (decMany indeg ((outEdges g n).map (fun e => e.dst))).1
        ((decMany indeg ((outEdges g n).map (fun e => e.dst))).2.reverse ++ rest) := rfl

/-- Effect of one decrement on a stored value. -/
def decEntry : Option Nat → Option Nat
  | some d => if d = 1 then none else some (d - 1)
  | none => none

theorem decOne_keys_sublist (indeg : List (String × Nat)) (c : String) :
    ((decOne indeg c).1.map Prod.fst).Sublist (indeg.map Prod.fst) := by
  induction indeg with
  | nil => simp [decOne]
  | cons hd tl ih =>
      obtain ⟨k, d⟩ := hd
      simp only [decOne]
      by_cases hk : k = c
      · simp only [if_pos hk]
        by_cases hd1 : d = 1
        · simp only [if_pos hd1]
          exact (List.sublist_cons_self _ _)
        · simp only [if_neg hd1, List.map_cons]
          exact List.Sublist.refl _
      · simp only [if_neg hk, List.map_cons]
        exact List.Sublist.cons₂ _ ih

theorem decOne_get (indeg : List (String × Nat)) (c : String)
    (h : (indeg.map Prod.fst).Nodup) (q : String) :
    dictGet (decOne indeg c).1 q =
      if q = c then decEntry (dictGet indeg c) else dictGet indeg q := by
  induction indeg with
  | nil =>
      by_cases hq : q = c <;> simp [decOne, dictGet, decEntry, hq]
  | cons hd tl ih =>
      obtain ⟨k, d⟩ := hd
      simp only [List.map_cons, List.nodup_cons] at h
      obtain ⟨hknot, htl⟩ := h
      simp only [decOne]
      by_cases hk : k = c
      · subst hk
        have hget : dictGet ((k, d) :: tl) k = some d := by simp [dictGet]
        by_cases hd1 : d = 1
        · subst hd1
          simp only [if_pos rfl]
          by_cases hq : q = k
          · subst hq
            have : dictGet tl q = none := by
              rw [← Option.not_isSome_iff_eq_none, dictGet_isSome_iff]
              exact hknot
            simp [this, hget, decEntry]
          · simp [hq, dictGet, Ne.symm hq]
        · simp only [if_pos rfl, if_neg hd1]
          by_cases hq : q = k
          · subst hq
            simp [dictGet, hget, decEntry, hd1]
          · simp [dictGet, Ne.symm hq, hq]
      · simp only [if_neg hk]
        by_cases hq : q = c
        · subst hq
          have hkq : ¬ k = q := hk
          simp [dictGet, hkq, ih htl, Ne.symm hkq]
        · by_cases hkq : k = q
          · subst hkq
            simp [dictGet, hq]
          · simp [dictGet, hkq, ih htl, hq]

theorem decOne_snd (indeg : List (String × Nat)) (c : String) :
    (decOne indeg c).2 = if dictGet indeg c = some 1 then some c else none := by
  induction indeg with
  | nil => simp [decOne, dictGet]
  | cons hd tl ih =>
      obtain ⟨k, d⟩ := hd
      simp only [decOne, dictGet]
      by_cases hk : k = c
      · subst hk
        by_cases hd1 : d = 1
        · simp [hd1]
        · simp [hd1, fun h => hd1 (Option.some.inj h)]
      · simp [hk, ih]

theorem decMany_keys_sublist (indeg : List (String × Nat)) (cs : List String) :
    ((decMany indeg cs).1.map Prod.fst).Sublist (indeg.map Prod.fst) := by
  induction cs generalizing indeg with
  | nil => simp [decMany]
  | cons c cs ih =>
      simp only [decMany]
      exact List.Sublist.trans (ih (decOne indeg c).1) (decOne_keys_sublist indeg c)

theorem decMany_keys_nodup (indeg : List (String × Nat)) (cs : List String)
    (h : (indeg.map Prod.fst).Nodup) : ((decMany indeg cs).1.map Prod.fst).Nodup :=
  (decMany_keys_sublist indeg cs).nodup h

theorem decMany_get (indeg : List (String × Nat)) (cs : List String) (q : String)
    (h : (indeg.map Prod.fst).Nodup) (hcs : cs.Nodup) :
    dictGet (decMany indeg cs).1 q =
      if q ∈ cs then decEntry (dictGet indeg q) else dictGet indeg q := by
  induction cs generalizing indeg with
  | nil => simp [decMany]
  | cons c cs ih =>
      simp only [List.nodup_cons] at hcs
      obtain ⟨hcnot, hcs'⟩ := hcs
      simp only [decMany]
      have hkeys1 : ((decOne indeg c).1.map Prod.fst).Nodup :=
        (decOne_keys_sublist indeg c).nodup h
      rw [ih (decOne indeg c).1 hkeys1 hcs']
      by_cases hq : q ∈ cs
      · have hqc : ¬ q = c := fun hh => hcnot (hh ▸ hq)
        rw [if_pos hq, decOne_get indeg c h q, if_neg hqc,
          if_pos (List.mem_cons_of_mem _ hq)]
      · rw [if_neg hq, decOne_get indeg c h q]
        by_cases hqc : q = c
        · subst hqc
          rw [if_pos rfl, if_pos (List.mem_cons_self _ _)]
        · rw [if_neg hqc, if_neg (by simp [hqc, hq])]

theorem decMany_snd (indeg : List (String × Nat)) (cs : List String)
    (h : (indeg.map Prod.fst).Nodup) (hcs : cs.Nodup) :
    (decMany indeg cs).2 = cs.filter (fun c => decide (dictGet indeg c = some 1)) := by
  induction cs generalizing indeg with
  | nil => simp [decMany]
  | cons c cs ih =>
      simp only [List.nodup_cons] at hcs
      obtain ⟨hcnot, hcs'⟩ := hcs
      simp only [decMany]
      have hkeys1 : ((decOne indeg c).1.map Prod.fst).Nodup :=
        (decOne_keys_sublist indeg c).nodup h
      rw [ih (decOne indeg c).1 hkeys1 hcs', decOne_snd indeg c]
      have hfeq : cs.filter (fun q => decide (dictGet (decOne indeg c).1 q = some 1)) =
          cs.filter (fun q => decide (dictGet indeg q = some 1)) := by
        apply List.filter_congr
        intro q hq
        have hqc : ¬ q = c := fun hh => hcnot (hh ▸ hq)
        rw [decOne_get indeg c h q, if_neg hqc]
      rw [hfeq, List.filter_cons]
      by_cases hc : dictGet indeg c = some 1 <;> simp [hc]

/-! ### Remaining in-degree bookkeeping -/

/-- Number of in-edges of `v` whose source has not yet been emitted. -/
def remIn (g : Graph) (E : List String) (v : String) : Nat :=
  (g.gedges.filter (fun e => e.dst = v && !(decide (e.src ∈ E)))).length

theorem remIn_nil (g : Graph) (v : String) : remIn g [] v = inDegree g v := by
  simp [remIn, inDegree]

theorem filter_split_length (l : List GEdge) (p q : GEdge → Bool) :
    (l.filter p).length =
      (l.filter (fun x => p x && q x)).length +
        (l.filter (fun x => p x && !q x)).length := by
  induction l with
  | nil => simp
  | cons x rest ih =>
      by_cases hp : p x
      · by_cases hq : q x <;> simp [List.filter_cons, hp, hq, ih] <;> omega
      · simp [List.filter_cons, hp, ih]

theorem remIn_snoc (g : Graph) (hwf : GraphWF g) (E : List String) (n v : String)
    (hn : n ∉ E) :
    remIn g E v = remIn g (E ++ [n]) v + (if hasEdge g n v then 1 else 0) := by
  unfold remIn
  rw [filter_split_length g.gedges (fun e => e.dst = v && !(decide (e.src ∈ E)))
    (fun e => decide (e.src = n))]
  have h1 : g.gedges.filter
      (fun e => (e.dst = v && !(decide (e.src ∈ E))) && !(decide (e.src = n))) =
      g.gedges.filter (fun e => e.dst = v && !(decide (e.src ∈ E ++ [n]))) := by
    apply List.filter_congr
    intro e _
    by_cases h1 : e.dst = v <;> by_cases h2 : e.src ∈ E <;> by_cases h3 : e.src = n <;>
      simp [h1, h2, h3]
  have h2 : g.gedges.filter
      (fun e => (e.dst = v && !(decide (e.src ∈ E))) && decide (e.src = n)) =
      g.gedges.filter (fun e => e.src = n && e.dst = v) := by
    apply List.filter_congr
    intro e _
    by_cases h1 : e.dst = v <;> by_cases h3 : e.src = n
    · have : e.src ∉ E := h3 ▸ hn
      simp [h1, h3, this, hn]
    · simp [h1, h3]
    · simp [h1, h3]
    · simp [h1, h3]
  rw [h1, h2, count_by_key g.gedges hwf.edgesKey n v]
  have : (∃ e ∈ g.gedges, e.src = n ∧ e.dst = v) ↔ hasEdge g n v := Iff.rfl
  rw [if_congr this rfl rfl]
  omega

/-! ### The loop invariant of Kahn's algorithm -/

theorem children_nodup (g : Graph) (hwf : GraphWF g) (n : String) :
    ((outEdges g n).map (fun e => e.dst)).Nodup := by
  have hsub : (outEdges g n).Sublist g.gedges := List.filter_sublist _
  have hlnodup : (outEdges g n).Nodup := by
    have hged : g.gedges.Nodup := List.Nodup.of_map _ hwf.edgesKey
    exact hsub.nodup hged
  refine List.Nodup.map_on ?_ hlnodup
  intro x hx y hy hxy
  have hxs : x.src = n := by
    have := List.mem_filter.mp hx
    simpa using this.2
  have hys : y.src = n := by
    have := List.mem_filter.mp hy
    simpa using this.2
  have hinj := List.inj_on_of_nodup_map hwf.edgesKey
  apply hinj (hsub.subset hx) (hsub.subset hy)
  rw [hxs, hys, hxy]

theorem mem_children (g : Graph) (n v : String) :
    v ∈ (outEdges g n).map (fun e => e.dst) ↔ hasEdge g n v := by
  simp only [outEdges, hasEdge, List.mem_map, List.mem_filter, decide_eq_true_eq]
  constructor
  · rintro ⟨e, ⟨he, hsrc⟩, rfl⟩
    exact ⟨e, he, hsrc, rfl⟩
  · rintro ⟨e, he, hsrc, rfl⟩
    exact ⟨e, ⟨he, hsrc⟩, rfl⟩

/-- The loop invariant of the `nx.topological_sort` worklist loop, relative
to the list `E` of already-emitted nodes. -/
structure KahnInv (g : Graph) (E : List String) (indeg : List (String × Nat))
    (stack : List String) : Prop where
  keysNodup : (indeg.map Prod.fst).Nodup
  stackNodup : stack.Nodup
  disjSI : ∀ v ∈ stack, dictGet indeg v = none
  stackSub : ∀ v ∈ stack, v ∈ g.gnodes
  stackE : ∀ v ∈ stack, v ∉ E
  stackZero : ∀ v ∈ stack, remIn g E v = 0
  mapVal : ∀ v d, dictGet indeg v = some d →
    v ∈ g.gnodes ∧ v ∉ E ∧ d = remIn g E v ∧ d ≠ 0
  cover : ∀ v ∈ g.gnodes, v ∉ E → (v ∈ stack ∨ (dictGet indeg v).isSome)

theorem map_fst_map_pair (m : List String) (f : String → Nat) :
    (m.map (fun v => (v, f v))).map Prod.fst = m := by
  induction m with
  | nil => rfl
  | cons v rest ih => simp [ih]

theorem kahnInv_init (g : Graph) (hwf : GraphWF g) :
    KahnInv g [] (initIndeg g) (initStack g) := by
  have hstack_mem : ∀ v, v ∈ initStack g ↔ (v ∈ g.gnodes ∧ inDegree g v = 0) := by
    intro v
    simp [initStack, List.mem_reverse, List.mem_filter]
  have hget : ∀ v, dictGet (initIndeg g) v =
      if v ∈ g.gnodes.filter (fun x => inDegree g x ≠ 0) then some (inDegree g v)
      else none := by
    intro v
    exact dictGet_map_pair _ _ v
  have hmemf : ∀ v, v ∈ g.gnodes.filter (fun x => inDegree g x ≠ 0) ↔
      (v ∈ g.gnodes ∧ inDegree g v ≠ 0) := by
    intro v
    simp [List.mem_filter]
  refine ⟨?_, ?_, ?_, ?_, ?_, ?_, ?_, ?_⟩
  · rw [initIndeg, map_fst_map_pair]
    exact hwf.nodesNodup.filter _
  · rw [initStack, List.nodup_reverse]
    exact hwf.nodesNodup.filter _
  · intro v hv
    rw [hstack_mem v] at hv
    rw [hget v, if_neg]
    intro hmem
    exact ((hmemf v).mp hmem).2 hv.2
  · intro v hv
    exact ((hstack_mem v).mp hv).1
  · intro v _ hv
    exact absurd hv (List.not_mem_nil v)
  · intro v hv
    rw [remIn_nil]
    exact ((hstack_mem v).mp hv).2
  · intro v d hvd
    rw [hget v] at hvd
    by_cases hmem : v ∈ g.gnodes.filter (fun x => inDegree g x ≠ 0)
    · rw [if_pos hmem] at hvd
      obtain ⟨hvg, hvnz⟩ := (hmemf v).mp hmem
      refine ⟨hvg, List.not_mem_nil v, ?_, ?_⟩
      · rw [remIn_nil]
        exact (Option.some.inj hvd).symm
      · rw [Option.some.inj hvd] at hvnz
        exact hvnz
    · rw [if_neg hmem] at hvd
      exact Option.noConfusion hvd
  · intro v hvg _
    by_cases hz : inDegree g v = 0
    · exact Or.inl ((hstack_mem v).mpr ⟨hvg, hz⟩)
    · right
      rw [hget v, if_pos ((hmemf v).mpr ⟨hvg, hz⟩)]
      rfl

theorem kahnInv_step (g : Graph) (hwf : GraphWF g) (E : List String)
    (indeg : List (String × Nat)) (n : String) (rest : List String)
    (inv : KahnInv g E indeg (n :: rest)) :
    KahnInv g (E ++ [n])
      (decMany indeg ((outEdges g n).map (fun e => e.dst))).1
      ((decMany indeg ((outEdges g n).map (fun e => e.dst))).2.reverse ++ rest) := by
  set ch := (outEdges g n).map (fun e => e.dst) with hch
  have hchn : ch.Nodup := children_nodup g hwf n
  have hchmem : ∀ v, v ∈ ch ↔ hasEdge g n v := fun v => mem_children g n v
  have hkeys := inv.keysNodup
  have hget : ∀ q, dictGet (decMany indeg ch).1 q =
      if q ∈ ch then decEntry (dictGet indeg q) else dictGet indeg q :=
    fun q => decMany_get indeg ch q hkeys hchn
  have hzs : (decMany indeg ch).2 =
      ch.filter (fun c => decide (dictGet indeg c = some 1)) :=
    decMany_snd indeg ch hkeys hchn
  have hnE : n ∉ E := inv.stackE n (List.mem_cons_self n rest)
  have hngetnone : dictGet indeg n = none := inv.disjSI n (List.mem_cons_self n rest)
  have hrem : ∀ v, remIn g E v =
      remIn g (E ++ [n]) v + (if hasEdge g n v then 1 else 0) :=
    fun v => remIn_snoc g hwf E n v hnE
  have hmemzs : ∀ v, v ∈ (decMany indeg ch).2 ↔
      (v ∈ ch ∧ dictGet indeg v = some 1) := by
    intro v
    rw [hzs]
    simp [List.mem_filter]
  have hrestnodup : rest.Nodup := (List.nodup_cons.mp inv.stackNodup).2
  have hnnotrest : n ∉ rest := (List.nodup_cons.mp inv.stackNodup).1
  have hstack' : ∀ v, v ∈ (decMany indeg ch).2.reverse ++ rest ↔
      (v ∈ (decMany indeg ch).2 ∨ v ∈ rest) := by
    intro v
    simp [List.mem_append, List.mem_reverse]
  refine ⟨?_, ?_, ?_, ?_, ?_, ?_, ?_, ?_⟩
  · exact decMany_keys_nodup indeg ch hkeys
  · rw [List.nodup_append]
    refine ⟨?_, hrestnodup, ?_⟩
    · rw [List.nodup_reverse, hzs]
      exact hchn.filter _
    · intro a ha hb
      rw [List.mem_reverse] at ha
      obtain ⟨hach, hasome⟩ := (hmemzs a).mp ha
      have hnone := inv.disjSI a (List.mem_cons_of_mem n hb)
      rw [hnone] at hasome
      exact Option.noConfusion hasome
  · intro v hv
    rw [hstack' v] at hv
    rcases hv with hv | hv
    · obtain ⟨hvch, hvone⟩ := (hmemzs v).mp hv
      rw [hget v, if_pos hvch, hvone]
      simp [decEntry]
    · have hnone := inv.disjSI v (List.mem_cons_of_mem n hv)
      rw [hget v]
      by_cases hvch : v ∈ ch
      · rw [if_pos hvch, hnone]
        rfl
      · rw [if_neg hvch]
        exact hnone
  · intro v hv
    rw [hstack' v] at hv
    rcases hv with hv | hv
    · obtain ⟨hvch, _⟩ := (hmemzs v).mp hv
      obtain ⟨e, he, _, hdst⟩ := (hchmem v).mp hvch
      exact hdst ▸ hwf.edgesDst e he
    · exact inv.stackSub v (List.mem_cons_of_mem n hv)
  · intro v hv
    rw [hstack' v] at hv
    intro hvmem
    rw [List.mem_append, List.mem_singleton] at hvmem
    rcases hv with hv | hv
    · obtain ⟨hvch, hvone⟩ := (hmemzs v).mp hv
      have hmv := inv.mapVal v 1 hvone
      rcases hvmem with h | h
      · exact hmv.2.1 h
      · rw [h, hngetnone] at hvone
        exact Option.noConfusion hvone
    · rcases hvmem with h | h
      · exact inv.stackE v (List.mem_cons_of_mem n hv) h
      · exact hnnotrest (h ▸ hv)
  · intro v hv
    rw [hstack' v] at hv
    rcases hv with hv | hv
    · obtain ⟨hvch, hvone⟩ := (hmemzs v).mp hv
      have hmv := inv.mapVal v 1 hvone
      have h1 : (1 : Nat) = remIn g E v := hmv.2.2.1
      have hhe : hasEdge g n v := (hchmem v).mp hvch
      have hr := hrem v
      rw [if_pos hhe] at hr
      omega
    · have h0 : remIn g E v = 0 := inv.stackZero v (List.mem_cons_of_mem n hv)
      have hr := hrem v
      omega
  · intro v d hvd
    rw [hget v] at hvd
    by_cases hvch : v ∈ ch
    · rw [if_pos hvch] at hvd
      cases hgv : dictGet indeg v with
      | none =>
          rw [hgv] at hvd
          exact Option.noConfusion hvd
      | some d0 =>
          rw [hgv] at hvd
          simp only [decEntry] at hvd
          by_cases hd01 : d0 = 1
          · rw [if_pos hd01] at hvd
            exact Option.noConfusion hvd
          · rw [if_neg hd01] at hvd
            have hd : d = d0 - 1 := (Option.some.inj hvd).symm
            have hmv := inv.mapVal v d0 hgv
            have hvn : ¬ v = n := by
              intro h
              rw [h, hngetnone] at hgv
              exact Option.noConfusion hgv
            have hhe : hasEdge g n v := (hchmem v).mp hvch
            have hr := hrem v
            rw [if_pos hhe] at hr
            have hd0r : d0 = remIn g E v := hmv.2.2.1
            have hd00 : d0 ≠ 0 := hmv.2.2.2
            refine ⟨hmv.1, ?_, by omega, by omega⟩
            intro hmem
            rw [List.mem_append, List.mem_singleton] at hmem
            rcases hmem with h | h
            · exact hmv.2.1 h
            · exact hvn h
    · rw [if_neg hvch] at hvd
      have hmv := inv.mapVal v d hvd
      have hvn : ¬ v = n := by
        intro h
        rw [h, hngetnone] at hvd
        exact Option.noConfusion hvd
      have hhe : ¬ hasEdge g n v := fun hh => hvch ((hchmem v).mpr hh)
      have hr := hrem v
      rw [if_neg hhe] at hr
      have hdr : d = remIn g E v := hmv.2.2.1
      refine ⟨hmv.1, ?_, by omega, hmv.2.2.2⟩
      intro hmem
      rw [List.mem_append, List.mem_singleton] at hmem
      rcases hmem with h | h
      · exact hmv.2.1 h
      · exact hvn h
  · intro v hvg hvE
    have hvE' : v ∉ E := fun h => hvE (List.mem_append.mpr (Or.inl h))
    have hvn : ¬ v = n := fun h =>
      hvE (List.mem_append.mpr (Or.inr (List.mem_singleton.mpr h)))
    rcases inv.cover v hvg hvE' with hv | hv
    · rcases List.mem_cons.mp hv with h | h
      · exact absurd h hvn
      · exact Or.inl ((hstack' v).mpr (Or.inr h))
    · cases hgv : dictGet indeg v with
      | none =>
          rw [hgv] at hv
          exact absurd hv (by simp)
      | some d0 =>
          by_cases hvch : v ∈ ch
          · by_cases hd01 : d0 = 1
            · left
              rw [hstack' v]
              left
              rw [hmemzs v]
              exact ⟨hvch, hd01 ▸ hgv⟩
            · right
              rw [hget v, if_pos hvch, hgv]
              simp [decEntry, hd01]
          · right
            rw [hget v, if_neg hvch, hgv]
            rfl

/-! ### Building a cycle from a stalled worklist -/

/-- Backward walk `[w m, w (m-1), …, w 1]`. -/
def walkList (w : Nat → String) : Nat → List String
  | 0 => []
  | m + 1 => w (m + 1) :: walkList w m

theorem chain_of_walk (g : Graph) (w : Nat → String)
    (hw : ∀ k, hasEdge g (w (k + 1)) (w k)) :
    ∀ m x, hasEdge g (w 1) x →
      List.Chain (hasEdge g) (w (m + 1)) (walkList w m ++ [x]) := by
  intro m
  induction m with
  | zero =>
      intro x hx
      simp only [walkList, List.nil_append]
      exact List.Chain.cons hx List.Chain.nil
  | succ k ih =>
      intro x hx
      simp only [walkList, List.cons_append]
      exact List.Chain.cons (hw (k + 1)) (ih x hx)

theorem cycleIn_of_walk (g : Graph) (w : Nat → String)
    (hw : ∀ k, hasEdge g (w (k + 1)) (w k)) (m : Nat) (hm : w (m + 1) = w 0) :
    CycleIn g (walkList w (m + 1)) := by
  show List.Chain (hasEdge g) (w (m + 1)) (walkList w m ++ [w (m + 1)])
  apply chain_of_walk g w hw m
  rw [hm]
  exact hw 0

theorem exists_cycle_of_pred (g : Graph) (S : List String) (hS : S ≠ [])
    (hpred : ∀ v ∈ S, ∃ u ∈ S, hasEdge g u v) :
    ∃ c, CycleIn g c := by
  have hstep : ∀ v : {x // x ∈ S}, ∃ u : {x // x ∈ S}, hasEdge g u.1 v.1 := by
    rintro ⟨v, hv⟩
    obtain ⟨u, hu, he⟩ := hpred v hv
    exact ⟨⟨u, hu⟩, he⟩
  choose f hf using hstep
  obtain ⟨v0, hv0⟩ := List.exists_mem_of_ne_nil S hS
  have hpigeon : ∃ i ∈ Finset.range (S.length + 1), ∃ j ∈ Finset.range (S.length + 1),
      i ≠ j ∧ (f^[i] ⟨v0, hv0⟩).1 = (f^[j] ⟨v0, hv0⟩).1 := by
    apply Finset.exists_ne_map_eq_of_card_lt_of_maps_to
    · rw [Finset.card_range]
      exact Nat.lt_succ_of_le S.toFinset_card_le
    · intro k _
      rw [List.mem_toFinset]
      exact (f^[k] ⟨v0, hv0⟩).2
  obtain ⟨i, _, j, _, hij, heq⟩ := hpigeon
  have hwalk : ∀ k, hasEdge g (f^[k + 1] ⟨v0, hv0⟩).1 (f^[k] ⟨v0, hv0⟩).1 := by
    intro k
    rw [Function.iterate_succ_apply' f k]
    exact hf _
  rcases Nat.lt_or_ge i j with hlt | hge
  · obtain ⟨m, hm⟩ : ∃ m, j = i + (m + 1) := ⟨j - i - 1, by omega⟩
    refine ⟨walkList (fun k => (f^[i + k] ⟨v0, hv0⟩).1) (m + 1), ?_⟩
    apply cycleIn_of_walk
    · intro k
      exact hwalk (i + k)
    · simp only [Nat.add_zero]
      rw [← hm]
      exact heq.symm
  · have hlt : j < i := by omega
    obtain ⟨m, hm⟩ : ∃ m, i = j + (m + 1) := ⟨i - j - 1, by omega⟩
    refine ⟨walkList (fun k => (f^[j + k] ⟨v0, hv0⟩).1) (m + 1), ?_⟩
    apply cycleIn_of_walk
    · intro k
      exact hwalk (j + k)
    · simp only [Nat.add_zero]
      rw [← hm]
      exact heq

/-- A stalled loop (empty worklist, nonempty in-degree map) exposes a cycle. -/
theorem kahn_base (g : Graph) (hwf : GraphWF g) (indeg : List (String × Nat))
    (E : List String) (inv : KahnInv g E indeg []) (hne : indeg ≠ []) :
    ∃ c, CycleIn g c := by
  apply exists_cycle_of_pred g (indeg.map Prod.fst)
  · intro h
    exact hne (List.map_eq_nil_iff.mp h)
  · intro v hv
    have hsome : (dictGet indeg v).isSome := (dictGet_isSome_iff indeg v).mpr hv
    obtain ⟨d, hd⟩ := Option.isSome_iff_exists.mp hsome
    have hmv := inv.mapVal v d hd
    have hdr : d = remIn g E v := hmv.2.2.1
    have hdnz : d ≠ 0 := hmv.2.2.2
    have hpos : 0 < (g.gedges.filter
        (fun e => e.dst = v && !(decide (e.src ∈ E)))).length := by
      have : remIn g E v ≠ 0 := fun h => hdnz (by rw [hdr, h])
      unfold remIn at this
      omega
    obtain ⟨e, hemem⟩ := List.exists_mem_of_length_pos hpos
    have he := List.mem_filter.mp hemem
    have hprop := he.2
    simp only [Bool.and_eq_true, decide_eq_true_eq, Bool.not_eq_true',
      decide_eq_false_iff_not] at hprop
    obtain ⟨hdst, hsrcE⟩ := hprop
    have hsrcg : e.src ∈ g.gnodes := hwf.edgesSrc e he.1
    rcases inv.cover e.src hsrcg hsrcE with habs | hsome2
    · exact absurd habs (List.not_mem_nil _)
    · refine ⟨e.src, ?_, ⟨e, he.1, rfl, hdst⟩⟩
      exact (dictGet_isSome_iff indeg e.src).mp hsome2

/-- Master lemma: conclusions of the worklist loop run from any
invariant-satisfying state with emitted prefix `E`. -/
theorem kahn_master (g : Graph) (hwf : GraphWF g) :
    ∀ N indeg stack E, indeg.length + stack.length ≤ N →
      KahnInv g E indeg stack →
      (∀ v ∈ kahnLoop g N indeg stack, v ∈ g.gnodes ∧ v ∉ E) ∧
      (kahnLoop g N indeg stack).Nodup ∧
      (∀ l1 v l2, kahnLoop g N indeg stack = l1 ++ v :: l2 →
        ∀ e ∈ g.gedges, e.dst = v → (e.src ∈ E ∨ e.src ∈ l1)) ∧
      ((kahnLoop g N indeg stack).length = indeg.length + stack.length ∨
        ∃ c, CycleIn g c) := by
  intro N
  induction N with
  | zero =>
      intro indeg stack E hle inv
      have hstack : stack = [] := List.eq_nil_of_length_eq_zero (by omega)
      have hindeg : indeg = [] := List.eq_nil_of_length_eq_zero (by omega)
      subst hstack hindeg
      rw [kahnLoop_zero]
      refine ⟨by simp, List.nodup_nil, ?_, Or.inl (by simp)⟩
      intro l1 v l2 h
      exact absurd h (by simp)
  | succ N ih =>
      intro indeg stack E hle inv
      cases stack with
      | nil =>
          rw [kahnLoop_nil]
          refine ⟨by simp, List.nodup_nil, ?_, ?_⟩
          · intro l1 v l2 h
            exact absurd h (by simp)
          · cases hind : indeg with
            | nil => left; simp [hind]
            | cons p ps =>
                right
                exact kahn_base g hwf indeg E inv (by rw [hind]; exact List.cons_ne_nil p ps)
      | cons n rest =>
          rw [kahnLoop_cons]
          have hinv' := kahnInv_step g hwf E indeg n rest inv
          have hlen := decMany_length indeg ((outEdges g n).map (fun e => e.dst))
          have hle' : (decMany indeg ((outEdges g n).map (fun e => e.dst))).1.length +
              ((decMany indeg ((outEdges g n).map (fun e => e.dst))).2.reverse ++
                rest).length ≤ N := by
            simp only [List.length_append, List.length_reverse, List.length_cons] at *
            omega
          obtain ⟨hsub, hnodup, htopo, hcomp⟩ := ih _ _ _ hle' hinv'
          have hnmem : n ∈ g.gnodes := inv.stackSub n (List.mem_cons_self n rest)
          have hnE : n ∉ E := inv.stackE n (List.mem_cons_self n rest)
          have hnrem : remIn g E n = 0 := inv.stackZero n (List.mem_cons_self n rest)
          refine ⟨?_, ?_, ?_, ?_⟩
          · intro v hv
            rcases List.mem_cons.mp hv with rfl | hv'
            · exact ⟨hnmem, hnE⟩
            · obtain ⟨h1, h2⟩ := hsub v hv'
              exact ⟨h1, fun hmem => h2 (List.mem_append.mpr (Or.inl hmem))⟩
          · rw [List.nodup_cons]
            refine ⟨?_, hnodup⟩
            intro hmem
            exact (hsub n hmem).2 (List.mem_append.mpr (Or.inr (List.mem_singleton.mpr rfl)))
          · intro l1 v l2 hsplit e he hedst
            cases l1 with
            | nil =>
                simp only [List.nil_append] at hsplit
                obtain ⟨hv, _⟩ := (List.cons.injEq _ _ _ _).mp hsplit
                subst hv
                left
                by_contra hsrcE
                have hlen0 : (g.gedges.filter
                    (fun x => x.dst = n && !(decide (x.src ∈ E)))).length ≠ 0 := by
                  have hmem : e ∈ g.gedges.filter
                      (fun x => x.dst = n && !(decide (x.src ∈ E))) := by
                    rw [List.mem_filter]
                    exact ⟨he, by simp [hedst, hsrcE]⟩
                  intro hzero
                  rw [List.length_eq_zero] at hzero
                  rw [hzero] at hmem
                  exact List.not_mem_nil e hmem
                exact hlen0 hnrem
            | cons a l1' =>
                obtain ⟨ha, htail⟩ := (List.cons.injEq _ _ _ _).mp hsplit
                subst ha
                rcases htopo l1' v l2 htail e he hedst with hE | hl
                · rcases List.mem_append.mp hE with h1 | h1
                  · exact Or.inl h1
                  · right
                    rw [List.mem_singleton.mp h1]
                    exact List.mem_cons_self _ l1'
                · right
                  exact List.mem_cons_of_mem _ hl
          · rcases hcomp with hcl | hcy
            · left
              simp only [List.length_cons, List.length_append, List.length_reverse] at *
              omega
            · exact Or.inr hcy

theorem filter_compl_length (l : List String) (p : String → Bool) :
    (l.filter (fun x => !(p x))).length + (l.filter p).length = l.length := by
  induction l with
  | nil => simp
  | cons v rest ih =>
      by_cases h : p v <;> simp [List.filter_cons, h] <;> omega

/-- Sum of in-degree-positive and in-degree-zero node counts. -/
theorem init_length_split (g : Graph) :
    (initIndeg g).length + (initStack g).length = g.gnodes.length := by
  unfold initIndeg initStack
  rw [List.length_map, List.length_reverse]
  have hcong : g.gnodes.filter (fun v => inDegree g v ≠ 0) =
      g.gnodes.filter (fun v => !(decide (inDegree g v = 0))) := by
    apply List.filter_congr
    intro x _
    simp [decide_not]
  rw [hcong]
  exact filter_compl_length g.gnodes (fun v => decide (inDegree g v = 0))

theorem kahnOrder_props (g : Graph) (hwf : GraphWF g) :
    (∀ v ∈ kahnOrder g, v ∈ g.gnodes) ∧
    (kahnOrder g).Nodup ∧
    (∀ l1 v l2, kahnOrder g = l1 ++ v :: l2 →
      ∀ e ∈ g.gedges, e.dst = v → e.src ∈ l1) ∧
    ((kahnOrder g).length = g.gnodes.length ∨ ∃ c, CycleIn g c) := by
  have hko : kahnOrder g =
      kahnLoop g ((initIndeg g).length + (initStack g).length)
        (initIndeg g) (initStack g) := rfl
  have h := kahn_master g hwf ((initIndeg g).length + (initStack g).length)
    (initIndeg g) (initStack g) [] (Nat.le_refl _) (kahnInv_init g hwf)
  obtain ⟨hsub, hnodup, htopo, hcomp⟩ := h
  rw [hko]
  refine ⟨fun v hv => (hsub v hv).1, hnodup, ?_, ?_⟩
  · intro l1 v l2 hsplit e he hedst
    rcases htopo l1 v l2 hsplit e he hedst with h1 | h1
    · exact absurd h1 (List.not_mem_nil _)
    · exact h1
  · rcases hcomp with h1 | h1
    · left
      rw [h1]
      exact init_length_split g
    · exact Or.inr h1

theorem kahnSucceeds_of_acyclic (g : Graph) (hwf : GraphWF g) (h : Acyclic g) :
    kahnSucceeds g = true := by
  rcases (kahnOrder_props g hwf).2.2.2 with h1 | h1
  · unfold kahnSucceeds
    simp [h1]
  · exact absurd h1 h

theorem mem_kahnOrder_of_succeeds (g : Graph) (hwf : GraphWF g)
    (h : kahnSucceeds g = true) : ∀ v ∈ g.gnodes, v ∈ kahnOrder g := by
  have hlen : (kahnOrder g).length = g.gnodes.length := by
    unfold kahnSucceeds at h
    simpa using h
  have hsub : (kahnOrder g).toFinset ⊆ g.gnodes.toFinset := by
    intro v hv
    rw [List.mem_toFinset] at hv ⊢
    exact (kahnOrder_props g hwf).1 v hv
  have hcard : g.gnodes.toFinset.card ≤ (kahnOrder g).toFinset.card := by
    rw [List.toFinset_card_of_nodup (kahnOrder_props g hwf).2.1,
      List.toFinset_card_of_nodup hwf.nodesNodup, hlen]
  have heq : (kahnOrder g).toFinset = g.gnodes.toFinset :=
    Finset.eq_of_subset_of_card_le hsub hcard
  intro v hv
  rw [← List.mem_toFinset, ← heq, List.mem_toFinset] at hv
  exact hv

/-! ### Precedence in the emitted order -/

/-- Strict precedence of `u` before `v` in the list `o`. -/
def Before (o : List String) (u v : String) : Prop :=
  ∃ l1 l2, o = l1 ++ u :: l2 ∧ v ∈ l2

theorem append_cons_inj (v : String) : ∀ (l1 m1 l2 m2 : List String),
    l1 ++ v :: l2 = m1 ++ v :: m2 → v ∉ l1 → v ∉ m1 → l1 = m1 ∧ l2 = m2 := by
  intro l1
  induction l1 with
  | nil =>
      intro m1 l2 m2 h hv1 hv2
      cases m1 with
      | nil =>
          simp only [List.nil_append] at h
          exact ⟨rfl, ((List.cons.injEq _ _ _ _).mp h).2⟩
      | cons a m1' =>
          simp only [List.nil_append, List.cons_append] at h
          obtain ⟨hva, _⟩ := (List.cons.injEq _ _ _ _).mp h
          subst hva
          exact absurd (List.mem_cons_self v m1') hv2
  | cons a l1' ih =>
      intro m1 l2 m2 h hv1 hv2
      cases m1 with
      | nil =>
          simp only [List.nil_append, List.cons_append] at h
          obtain ⟨hva, _⟩ := (List.cons.injEq _ _ _ _).mp h
          subst hva
          exact absurd (List.mem_cons_self a l1') hv1
      | cons b m1' =>
          simp only [List.cons_append] at h
          obtain ⟨hab, htail⟩ := (List.cons.injEq _ _ _ _).mp h
          have hv1' : v ∉ l1' := fun hh => hv1 (List.mem_cons_of_mem a hh)
          have hv2' : v ∉ m1' := fun hh => hv2 (List.mem_cons_of_mem b hh)
          obtain ⟨he1, he2⟩ := ih m1' l2 m2 htail hv1' hv2'
          exact ⟨by rw [hab, he1], he2⟩

theorem not_mem_self_of_nodup (pre suf : List String) (v : String)
    (h : (pre ++ v :: suf).Nodup) : v ∉ pre := by
  intro hv
  rw [List.nodup_append] at h
  exact h.2.2 hv (List.mem_cons_self v suf)

theorem not_before_self (o : List String) (ho : o.Nodup) (u : String) :
    ¬ Before o u u := by
  rintro ⟨l1, l2, hsplit, hmem⟩
  rw [hsplit] at ho
  have h2 := List.Nodup.of_append_right ho
  rw [List.nodup_cons] at h2
  exact h2.1 hmem

theorem before_trans (o : List String) (ho : o.Nodup) (u v w : String)
    (h1 : Before o u v) (h2 : Before o v w) : Before o u w := by
  obtain ⟨l1, l2, hsp1, hv⟩ := h1
  obtain ⟨m1, m2, hsp2, hw⟩ := h2
  obtain ⟨a, b, hab⟩ := List.append_of_mem hv
  have hsp1' : o = (l1 ++ u :: a) ++ v :: b := by
    rw [hsp1, hab]
    simp [List.append_assoc]
  have hnd1 : v ∉ l1 ++ u :: a := not_mem_self_of_nodup _ _ _ (hsp1' ▸ ho)
  have hnd2 : v ∉ m1 := not_mem_self_of_nodup _ _ _ (hsp2 ▸ ho)
  have heq := append_cons_inj v (l1 ++ u :: a) m1 b m2 (hsp1'.symm.trans hsp2) hnd1 hnd2
  refine ⟨l1, l2, hsp1, ?_⟩
  rw [hab]
  have hwb : w ∈ b := by
    rw [heq.2]
    exact hw
  exact List.mem_append.mpr (Or.inr (List.mem_cons_of_mem v hwb))

theorem topo_before (g : Graph) (hwf : GraphWF g) (hs : kahnSucceeds g = true)
    (u v : String) (he : hasEdge g u v) : Before (kahnOrder g) u v := by
  obtain ⟨e, hem, hsrc, hdst⟩ := he
  have hvmem : v ∈ kahnOrder g :=
    mem_kahnOrder_of_succeeds g hwf hs v (hdst ▸ hwf.edgesDst e hem)
  obtain ⟨m1, m2, hm⟩ := List.append_of_mem hvmem
  have hu : u ∈ m1 := by
    have h1 := (kahnOrder_props g hwf).2.2.1 m1 v m2 hm e hem hdst
    exact hsrc ▸ h1
  obtain ⟨a, b, hab⟩ := List.append_of_mem hu
  refine ⟨a, b ++ v :: m2, ?_, ?_⟩
  · rw [hm, hab]
    simp [List.append_assoc]
  · exact List.mem_append.mpr (Or.inr (List.mem_cons_self v m2))

theorem chain_before (o : List String) (ho : o.Nodup)
    (R : String → String → Prop) (hR : ∀ u v, R u v → Before o u v) :
    ∀ l a b, List.Chain R a (l ++ [b]) → Before o a b := by
  intro l
  induction l with
  | nil =>
      intro a b h
      cases h with
      | cons hab _ => exact hR a b hab
  | cons x xs ih =>
      intro a b h
      cases h with
      | cons hax htail => exact before_trans o ho a x b (hR a x hax) (ih x b htail)

theorem not_kahnSucceeds_of_cycle (g : Graph) (hwf : GraphWF g) (c : List String)
    (hc : CycleIn g c) : ¬ (kahnSucceeds g = true) := by
  intro hs
  cases c with
  | nil => exact hc
  | cons v rest =>
      have hchain : List.Chain (hasEdge g) v (rest ++ [v]) := hc
      have hb : Before (kahnOrder g) v v :=
        chain_before (kahnOrder g) (kahnOrder_props g hwf).2.1 (hasEdge g)
          (fun u w h => topo_before g hwf hs u w h) rest v v hchain
      exact not_before_self _ (kahnOrder_props g hwf).2.1 v hb

theorem kahnSucceeds_iff_acyclic (g : Graph) (hwf : GraphWF g) :
    kahnSucceeds g = true ↔ Acyclic g := by
  constructor
  · rintro hs ⟨c, hc⟩
    exact not_kahnSucceeds_of_cycle g hwf c hc hs
  · exact kahnSucceeds_of_acyclic g hwf

/-! ### Run-state lemmas: backstories only grow -/

/-- Monotone evolution of the agent dictionary: every agent stays present,
role and goal unchanged, backstory extended only on the right. -/
def BackGrow (a b : List (String × AgentRec)) : Prop :=
  ∀ k ag, dictGet a k = some ag →
    ∃ s, dictGet b k = some ⟨ag.role, ag.goal, ag.backstory ++ s⟩

theorem backGrow_refl (a : List (String × AgentRec)) : BackGrow a a := by
  intro k ag h
  refine ⟨"", ?_⟩
  rw [String.append_empty]
  exact h

theorem backGrow_trans {a b c : List (String × AgentRec)}
    (h1 : BackGrow a b) (h2 : BackGrow b c) : BackGrow a c := by
  intro k ag h
  obtain ⟨s1, hb⟩ := h1 k ag h
  obtain ⟨s2, hc⟩ := h2 k _ hb
  refine ⟨s1 ++ s2, ?_⟩
  rw [← String.append_assoc]
  exact hc

theorem backGrow_dictModify (a : List (String × AgentRec)) (key m : String) :
    BackGrow a (dictModify a key (fun x => { x with backstory := x.backstory ++ m })) := by
  intro k ag h
  rw [dictGet_dictModify]
  by_cases hk : k = key
  · subst hk
    rw [if_pos rfl, h]
    exact ⟨m, rfl⟩
  · rw [if_neg hk]
    refine ⟨"", ?_⟩
    rw [String.append_empty]
    exact h

/-! ### Field characterisation of the three edge-processing branches -/

/-- Reuse branch (lines 562-580): cached result appended once to the
downstream backstory, active/inactive broadcast, no invocation, no
transcript entry, cache untouched. -/
theorem edgeBody_reuse (exec : TaskExec) (st : RunState) (e : GEdge) (fa : AgentRec)
    (r : String) (hc : dictGet st.cache e.src = some r) :
    (edgeBody exec st e fa).agents =
      dictModify st.agents e.dst
        (fun a => { a with backstory := a.backstory ++ resultMarker fa.role r }) ∧
    (edgeBody exec st e fa).cache = st.cache ∧
    (edgeBody exec st e fa).results = st.results ∧
    (edgeBody exec st e fa).events =
      (st.events ++ [.active e.src ("Réutilisation du résultat de " ++ fa.role)]) ++
        [.inactive e.src] ∧
    (edgeBody exec st e fa).calls = st.calls := by
  unfold edgeBody
  rw [hc]
  exact ⟨rfl, rfl, rfl, rfl, rfl⟩

/-- Fresh invocation, success (lines 582-615): active broadcast, one call,
cache entry for the source, downstream backstory appended twice (the
duplicated `+=` at lines 595 and 610), inactive broadcast, one transcript
entry. -/
theorem edgeBody_success (exec : TaskExec) (st : RunState) (e : GEdge) (fa : AgentRec)
    (r : String) (hc : dictGet st.cache e.src = none)
    (hx : exec fa.backstory e.description e.expected_output = some r) :
    (edgeBody exec st e fa).agents =
      dictModify
        (dictModify st.agents e.dst
          (fun a => { a with backstory := a.backstory ++ resultMarker fa.role r }))
        e.dst
        (fun a => { a with backstory := a.backstory ++ resultMarker fa.role r }) ∧
    (edgeBody exec st e fa).cache = dictInsert st.cache e.src r ∧
    (edgeBody exec st e fa).results =
      st.results ++ [formattedResult fa.role e.description r] ∧
    (edgeBody exec st e fa).events =
      (st.events ++ [.active e.src e.description]) ++ [.inactive e.src] ∧
    (edgeBody exec st e fa).calls =
      st.calls ++ [⟨e.src, fa.backstory, e.description, e.expected_output, some r⟩] := by
  unfold edgeBody
  rw [hc, hx]
  exact ⟨rfl, rfl, rfl, rfl, rfl⟩

/-- Fresh invocation, failure (line 617): active broadcast, one failed
call, everything else untouched — no cache entry, no backstory append,
no transcript entry, and no inactive broadcast. -/
theorem edgeBody_fail (exec : TaskExec) (st : RunState) (e : GEdge) (fa : AgentRec)
    (hc : dictGet st.cache e.src = none)
    (hx : exec fa.backstory e.description e.expected_output = none) :
    (edgeBody exec st e fa).agents = st.agents ∧
    (edgeBody exec st e fa).cache = st.cache ∧
    (edgeBody exec st e fa).results = st.results ∧
    (edgeBody exec st e fa).events = st.events ++ [.active e.src e.description] ∧
    (edgeBody exec st e fa).calls =
      st.calls ++ [⟨e.src, fa.backstory, e.description, e.expected_output, none⟩] := by
  unfold edgeBody
  rw [hc, hx]
  exact ⟨rfl, rfl, rfl, rfl, rfl⟩

theorem backGrow_edgeBody (exec : TaskExec) (st : RunState) (e : GEdge) (fa : AgentRec) :
    BackGrow st.agents (edgeBody exec st e fa).agents := by
  cases hc : dictGet st.cache e.src with
  | some r =>
      rw [(edgeBody_reuse exec st e fa r hc).1]
      exact backGrow_dictModify _ _ _
  | none =>
      cases hx : exec fa.backstory e.description e.expected_output with
      | some r =>
          rw [(edgeBody_success exec st e fa r hc hx).1]
          exact backGrow_trans (backGrow_dictModify _ _ _) (backGrow_dictModify _ _ _)
      | none =>
          rw [(edgeBody_fail exec st e fa hc hx).1]
          exact backGrow_refl _

theorem backGrow_handleEdge (exec : TaskExec) (st : RunState) (e : GEdge)
    (st' : RunState) (h : handleEdge exec st e = .ok st') :
    BackGrow st.agents st'.agents := by
  unfold handleEdge at h
  cases hsrc : dictGet st.agents e.src with
  | none =>
      rw [hsrc] at h
      exact Except.noConfusion h
  | some fa =>
      rw [hsrc] at h
      cases hdst : dictGet st.agents e.dst with
      | none =>
          rw [hdst] at h
          exact Except.noConfusion h
      | some _ =>
          rw [hdst] at h
          have heq : edgeBody exec st e fa = st' := Except.ok.inj h
          rw [← heq]
          exact backGrow_edgeBody exec st e fa

theorem backGrow_runEdges (exec : TaskExec) :
    ∀ es st, BackGrow st.agents (runEdges exec st es).1.agents := by
  intro es
  induction es with
  | nil =>
      intro st
      exact backGrow_refl _
  | cons e es ih =>
      intro st
      unfold runEdges
      cases hh : handleEdge exec st e with
      | error m => exact backGrow_refl _
      | ok st' => exact backGrow_trans (backGrow_handleEdge exec st e st' hh) (ih st')

theorem backGrow_handleNode (exec : TaskExec) (nd : List (String × DNode)) (g : Graph)
    (st : RunState) (nk : String) :
    BackGrow st.agents (handleNode exec nd g st nk).1.agents := by
  unfold handleNode
  cases hget : dictGet nd nk with
  | none => exact backGrow_refl _
  | some _ => exact backGrow_runEdges exec (outEdges g nk) st

theorem backGrow_runNodes (exec : TaskExec) (nd : List (String × DNode)) (g : Graph) :
    ∀ l st, BackGrow st.agents (runNodes exec nd g st l).1.agents := by
  intro l
  induction l with
  | nil =>
      intro st
      exact backGrow_refl _
  | cons nk nks ih =>
      intro st
      unfold runNodes
      cases hh : handleNode exec nd g st nk with
      | mk st' o =>
          cases o with
          | none =>
              have h1 : BackGrow st.agents st'.agents := by
                have := backGrow_handleNode exec nd g st nk
                rw [hh] at this
                exact this
              exact backGrow_trans h1 (ih st')
          | some m =>
              have := backGrow_handleNode exec nd g st nk
              rw [hh] at this
              exact this

/-! ### The memoization invariant -/

/-- Number of successful task-executor invocations recorded for a node. -/
def succCalls (cs : List Call) (k : String) : Nat :=
  (cs.filter (fun c => c.agentKey = k && c.output.isSome)).length

theorem succCalls_append (cs : List Call) (c : Call) (k : String) :
    succCalls (cs ++ [c]) k =
      succCalls cs k + (if c.agentKey = k ∧ c.output.isSome then 1 else 0) := by
  unfold succCalls
  rw [List.filter_append, List.length_append]
  by_cases h : c.agentKey = k ∧ c.output.isSome
  · rw [if_pos h]
    simp [List.filter, h.1, h.2]
  · rw [if_neg h]
    have : (c.agentKey = k && c.output.isSome) = false := by
      rw [Bool.and_eq_false_iff]
      by_cases h1 : c.agentKey = k
      · right
        by_cases h2 : c.output.isSome
        · exact absurd ⟨h1, h2⟩ h
        · simpa using h2
      · left
        simpa using h1
    simp [List.filter, this]

/-- Soundness of the result cache with respect to the call trace: a cache
entry exists exactly when one successful invocation was recorded, and no
node ever records a second successful invocation. -/
structure CacheSound (st : RunState) : Prop where
  le_one : ∀ k, succCalls st.calls k ≤ 1
  iff_cache : ∀ k, (dictGet st.cache k).isSome ↔ 1 ≤ succCalls st.calls k

theorem runEdges_cons (exec : TaskExec) (st : RunState) (e : GEdge) (es : List GEdge) :
    runEdges exec st (e :: es) =
      match handleEdge exec st e with
      | .error m => (st, some m)
      | .ok st' => runEdges exec st' es := rfl

theorem runEdges_cons_ok (exec : TaskExec) (st : RunState) (e : GEdge) (es : List GEdge)
    (st' : RunState) (hh : handleEdge exec st e = .ok st') :
    runEdges exec st (e :: es) = runEdges exec st' es := by
  rw [runEdges_cons, hh]

theorem runEdges_cons_err (exec : TaskExec) (st : RunState) (e : GEdge) (es : List GEdge)
    (m : String) (hh : handleEdge exec st e = .error m) :
    runEdges exec st (e :: es) = (st, some m) := by
  rw [runEdges_cons, hh]

theorem handleNode_none (exec : TaskExec) (nd : List (String × DNode)) (g : Graph)
    (st : RunState) (nk : String) (h : dictGet nd nk = none) :
    handleNode exec nd g st nk = (st, some (keyErr nk)) := by
  unfold handleNode
  rw [h]

theorem handleNode_some (exec : TaskExec) (nd : List (String × DNode)) (g : Graph)
    (st : RunState) (nk : String) (x : DNode) (h : dictGet nd nk = some x) :
    handleNode exec nd g st nk = runEdges exec st (outEdges g nk) := by
  unfold handleNode
  rw [h]

theorem runNodes_cons (exec : TaskExec) (nd : List (String × DNode)) (g : Graph)
    (st : RunState) (nk : String) (nks : List String) :
    runNodes exec nd g st (nk :: nks) =
      match handleNode exec nd g st nk with
      | (st', some m) => (st', some m)
      | (st', none) => runNodes exec nd g st' nks := rfl

theorem runNodes_cons_ok (exec : TaskExec) (nd : List (String × DNode)) (g : Graph)
    (st : RunState) (nk : String) (nks : List String) (st' : RunState)
    (hh : handleNode exec nd g st nk = (st', none)) :
    runNodes exec nd g st (nk :: nks) = runNodes exec nd g st' nks := by
  rw [runNodes_cons, hh]

theorem runNodes_cons_err (exec : TaskExec) (nd : List (String × DNode)) (g : Graph)
    (st : RunState) (nk : String) (nks : List String) (st' : RunState) (m : String)
    (hh : handleNode exec nd g st nk = (st', some m)) :
    runNodes exec nd g st (nk :: nks) = (st', some m) := by
  rw [runNodes_cons, hh]

theorem cacheSound_edgeBody (exec : TaskExec) (st : RunState) (e : GEdge)
    (fa : AgentRec) (h : CacheSound st) : CacheSound (edgeBody exec st e fa) := by
  cases hc : dictGet st.cache e.src with
  | some r =>
      obtain ⟨_, hcache, _, _, hcalls⟩ := edgeBody_reuse exec st e fa r hc
      exact ⟨fun k => hcalls ▸ h.le_one k,
        fun k => by rw [hcache, hcalls]; exact h.iff_cache k⟩
  | none =>
      cases hx : exec fa.backstory e.description e.expected_output with
      | some r =>
          obtain ⟨_, hcache, _, _, hcalls⟩ := edgeBody_success exec st e fa r hc hx
          have hsrc0 : succCalls st.calls e.src = 0 := by
            have hiff := h.iff_cache e.src
            rw [hc] at hiff
            simp only [Option.isSome_none, Bool.false_eq_true, false_iff, not_le] at hiff
            omega
          refine ⟨?_, ?_⟩
          · intro k
            rw [hcalls, succCalls_append]
            by_cases hk : k = e.src
            · subst hk
              rw [if_pos ⟨rfl, rfl⟩]
              omega
            · have hcond : ¬((e.src = k) ∧ (some r).isSome = true) :=
                fun hh => hk hh.1.symm
              rw [if_neg hcond]
              have := h.le_one k
              omega
          · intro k
            rw [hcalls, succCalls_append, hcache, dictGet_dictInsert]
            by_cases hk : k = e.src
            · subst hk
              rw [if_pos rfl, if_pos ⟨rfl, rfl⟩]
              exact ⟨fun _ => by omega, fun _ => rfl⟩
            · have hcond : ¬((e.src = k) ∧ (some r).isSome = true) :=
                fun hh => hk hh.1.symm
              rw [if_neg hk, if_neg hcond, Nat.add_zero]
              exact h.iff_cache k
      | none =>
          obtain ⟨_, hcache, _, _, hcalls⟩ := edgeBody_fail exec st e fa hc hx
          have hnosucc : ∀ k, succCalls (edgeBody exec st e fa).calls k =
              succCalls st.calls k := by
            intro k
            have hcond : ¬((e.src = k) ∧ (none : Option String).isSome = true) :=
              fun hh => by simpa using hh.2
            rw [hcalls, succCalls_append, if_neg hcond, Nat.add_zero]
          refine ⟨fun k => by rw [hnosucc k]; exact h.le_one k, ?_⟩
          intro k
          rw [hnosucc k, hcache]
          exact h.iff_cache k

theorem cacheSound_handleEdge (exec : TaskExec) (st : RunState) (e : GEdge)
    (st' : RunState) (hok : handleEdge exec st e = .ok st') (h : CacheSound st) :
    CacheSound st' := by
  unfold handleEdge at hok
  cases hsrc : dictGet st.agents e.src with
  | none =>
      rw [hsrc] at hok
      exact Except.noConfusion hok
  | some fa =>
      rw [hsrc] at hok
      cases hdst : dictGet st.agents e.dst with
      | none =>
          rw [hdst] at hok
          exact Except.noConfusion hok
      | some _ =>
          rw [hdst] at hok
          have heq : edgeBody exec st e fa = st' := Except.ok.inj hok
          rw [← heq]
          exact cacheSound_edgeBody exec st e fa h

theorem cacheSound_runEdges (exec : TaskExec) :
    ∀ es st, CacheSound st → CacheSound (runEdges exec st es).1 := by
  intro es
  induction es with
  | nil =>
      intro st h
      exact h
  | cons e es ih =>
      intro st h
      cases hh : handleEdge exec st e with
      | error m =>
          rw [runEdges_cons_err exec st e es m hh]
          exact h
      | ok st' =>
          rw [runEdges_cons_ok exec st e es st' hh]
          exact ih st' (cacheSound_handleEdge exec st e st' hh h)

theorem cacheSound_handleNode (exec : TaskExec) (nd : List (String × DNode))
    (g : Graph) (st : RunState) (nk : String) (h : CacheSound st) :
    CacheSound (handleNode exec nd g st nk).1 := by
  cases hget : dictGet nd nk with
  | none =>
      rw [handleNode_none exec nd g st nk hget]
      exact h
  | some x =>
      rw [handleNode_some exec nd g st nk x hget]
      exact cacheSound_runEdges exec (outEdges g nk) st h

theorem cacheSound_runNodes (exec : TaskExec) (nd : List (String × DNode)) (g : Graph) :
    ∀ l st, CacheSound st → CacheSound (runNodes exec nd g st l).1 := by
  intro l
  induction l with
  | nil =>
      intro st h
      exact h
  | cons nk nks ih =>
      intro st h
      cases hh : handleNode exec nd g st nk with
      | mk st' o =>
          have h' : CacheSound st' := by
            have h2 := cacheSound_handleNode exec nd g st nk h
            rw [hh] at h2
            exact h2
          cases o with
          | none =>
              rw [runNodes_cons_ok exec nd g st nk nks st' hh]
              exact ih st' h'
          | some m =>
              rw [runNodes_cons_err exec nd g st nk nks st' m hh]
              exact h'

theorem cacheSound_init (enrich : DNode → String) (d : Diagram) :
    CacheSound (initState enrich d) := by
  refine ⟨?_, ?_⟩
  · intro k
    simp [initState, succCalls]
  · intro k
    simp [initState, succCalls, dictGet]

/-! ### Composition and status lemmas for the run -/

theorem runEdges_append_ok (exec : TaskExec) :
    ∀ xs ys st st1, runEdges exec st xs = (st1, none) →
      runEdges exec st (xs ++ ys) = runEdges exec st1 ys := by
  intro xs
  induction xs with
  | nil =>
      intro ys st st1 h
      have h1 : st = st1 := congrArg Prod.fst h
      rw [List.nil_append, h1]
  | cons e es ih =>
      intro ys st st1 h
      cases hh : handleEdge exec st e with
      | error m =>
          rw [runEdges_cons_err exec st e es m hh] at h
          exact absurd (congrArg Prod.snd h) (by simp)
      | ok st' =>
          rw [runEdges_cons_ok exec st e es st' hh] at h
          rw [List.cons_append, runEdges_cons_ok exec st e (es ++ ys) st' hh]
          exact ih ys st' st1 h

theorem runNodes_append_ok (exec : TaskExec) (nd : List (String × DNode)) (g : Graph) :
    ∀ xs ys st st1, runNodes exec nd g st xs = (st1, none) →
      runNodes exec nd g st (xs ++ ys) = runNodes exec nd g st1 ys := by
  intro xs
  induction xs with
  | nil =>
      intro ys st st1 h
      have h1 : st = st1 := congrArg Prod.fst h
      rw [List.nil_append, h1]
  | cons nk nks ih =>
      intro ys st st1 h
      cases hh : handleNode exec nd g st nk with
      | mk st' o =>
          cases o with
          | none =>
              rw [runNodes_cons_ok exec nd g st nk nks st' hh] at h
              rw [List.cons_append, runNodes_cons_ok exec nd g st nk (nks ++ ys) st' hh]
              exact ih ys st' st1 h
          | some m =>
              rw [runNodes_cons_err exec nd g st nk nks st' m hh] at h
              exact absurd (congrArg Prod.snd h) (by simp)

/-- A completed dispatch loop looked up every dispatched node successfully
in the node dictionary. -/
theorem runNodes_none_lookup (exec : TaskExec) (nd : List (String × DNode)) (g : Graph) :
    ∀ l st st', runNodes exec nd g st l = (st', none) →
      ∀ n ∈ l, (dictGet nd n).isSome := by
  intro l
  induction l with
  | nil =>
      intro st st' _ n hn
      exact absurd hn (List.not_mem_nil n)
  | cons nk nks ih =>
      intro st st' h n hn
      cases hh : handleNode exec nd g st nk with
      | mk st1 o =>
          cases o with
          | none =>
              rw [runNodes_cons_ok exec nd g st nk nks st1 hh] at h
              rcases List.mem_cons.mp hn with rfl | hn'
              · cases hget : dictGet nd n with
                | none =>
                    rw [handleNode_none exec nd g st n hget] at hh
                    exact absurd (congrArg Prod.snd hh) (by simp)
                | some x =>
                    rfl
              · exact ih st1 st' h n hn'
          | some m =>
              rw [runNodes_cons_err exec nd g st nk nks st1 m hh] at h
              exact absurd (congrArg Prod.snd h) (by simp)

theorem executeProcess_cycle (exec : TaskExec) (enrich : DNode → String) (d : Diagram)
    (hk : ¬ (kahnSucceeds (buildGraph d.dlinks) = true)) :
    executeProcess exec enrich d = ⟨errorResult cycleMsg, initState enrich d⟩ := by
  unfold executeProcess
  rw [if_neg hk]

theorem executeProcess_err (exec : TaskExec) (enrich : DNode → String) (d : Diagram)
    (st : RunState) (m : String)
    (hk : kahnSucceeds (buildGraph d.dlinks) = true)
    (hr : runNodes exec (nodesDictOf d) (buildGraph d.dlinks) (initState enrich d)
      (kahnOrder (buildGraph d.dlinks)) = (st, some m)) :
    executeProcess exec enrich d = ⟨errorResult m, st⟩ := by
  unfold executeProcess
  rw [if_pos hk, hr]

theorem executeProcess_ok (exec : TaskExec) (enrich : DNode → String) (d : Diagram)
    (st : RunState)
    (hk : kahnSucceeds (buildGraph d.dlinks) = true)
    (hr : runNodes exec (nodesDictOf d) (buildGraph d.dlinks) (initState enrich d)
      (kahnOrder (buildGraph d.dlinks)) = (st, none)) :
    executeProcess exec enrich d =
      ⟨⟨"success", String.intercalate "\n" st.results,
        st.agents.map (fun p => (p.2.role, p.2.backstory)),
        ((buildGraph d.dlinks).gnodes.filter
          (fun v => inDegree (buildGraph d.dlinks) v = 0)).length⟩, st⟩ := by
  unfold executeProcess
  rw [if_pos hk, hr]

theorem executeProcess_status (exec : TaskExec) (enrich : DNode → String) (d : Diagram) :
    (executeProcess exec enrich d).result.status = "success" ∨
    (executeProcess exec enrich d).result.status = "error" := by
  by_cases hk : kahnSucceeds (buildGraph d.dlinks) = true
  · cases hr : runNodes exec (nodesDictOf d) (buildGraph d.dlinks) (initState enrich d)
      (kahnOrder (buildGraph d.dlinks)) with
    | mk st o =>
        cases o with
        | none =>
            left
            rw [executeProcess_ok exec enrich d st hk hr]
        | some m =>
            right
            rw [executeProcess_err exec enrich d st m hk hr]
            rfl
  · right
    rw [executeProcess_cycle exec enrich d hk]
    rfl

theorem executeProcess_final (exec : TaskExec) (enrich : DNode → String) (d : Diagram) :
    (executeProcess exec enrich d).final = initState enrich d ∨
    (executeProcess exec enrich d).final =
      (runNodes exec (nodesDictOf d) (buildGraph d.dlinks) (initState enrich d)
        (kahnOrder (buildGraph d.dlinks))).1 := by
  by_cases hk : kahnSucceeds (buildGraph d.dlinks) = true
  · right
    cases hr : runNodes exec (nodesDictOf d) (buildGraph d.dlinks) (initState enrich d)
      (kahnOrder (buildGraph d.dlinks)) with
    | mk st o =>
        cases o with
        | none => rw [executeProcess_ok exec enrich d st hk hr]
        | some m => rw [executeProcess_err exec enrich d st m hk hr]
  · left
    rw [executeProcess_cycle exec enrich d hk]

theorem executeProcess_success_inv (exec : TaskExec) (enrich : DNode → String)
    (d : Diagram) (h : (executeProcess exec enrich d).result.status = "success") :
    kahnSucceeds (buildGraph d.dlinks) = true ∧
    (runNodes exec (nodesDictOf d) (buildGraph d.dlinks) (initState enrich d)
      (kahnOrder (buildGraph d.dlinks))).2 = none ∧
    (executeProcess exec enrich d).result.branches_count =
      ((buildGraph d.dlinks).gnodes.filter
        (fun v => inDegree (buildGraph d.dlinks) v = 0)).length := by
  by_cases hk : kahnSucceeds (buildGraph d.dlinks) = true
  · cases hr : runNodes exec (nodesDictOf d) (buildGraph d.dlinks) (initState enrich d)
      (kahnOrder (buildGraph d.dlinks)) with
    | mk st o =>
        cases o with
        | none =>
            refine ⟨hk, rfl, ?_⟩
            rw [executeProcess_ok exec enrich d st hk hr]
        | some m =>
            rw [executeProcess_err exec enrich d st m hk hr] at h
            have h2 : ("error" : String) = "success" := h
            exact absurd h2 (by decide)
  · rw [executeProcess_cycle exec enrich d hk] at h
    have h2 : ("error" : String) = "success" := h
    exact absurd h2 (by decide)

/-! ### Remaining helpers for the claims -/

theorem foldl_insert_isSome (l : List DNode) :
    ∀ (acc : List (String × DNode)) (k : String),
      (dictGet (l.foldl (fun a n => dictInsert a n.key n) acc) k).isSome ↔
        ((dictGet acc k).isSome ∨ ∃ n ∈ l, n.key = k) := by
  induction l with
  | nil =>
      intro acc k
      simp
  | cons x xs ih =>
      intro acc k
      rw [List.foldl_cons, ih, dictGet_dictInsert]
      by_cases hk : k = x.key
      · rw [if_pos hk]
        simp only [Option.isSome_some, true_or, true_iff]
        right
        exact ⟨x, List.mem_cons_self x xs, hk.symm⟩
      · rw [if_neg hk]
        constructor
        · rintro (h | ⟨n, hn, hkey⟩)
          · exact Or.inl h
          · exact Or.inr ⟨n, List.mem_cons_of_mem x hn, hkey⟩
        · rintro (h | ⟨n, hn, hkey⟩)
          · exact Or.inl h
          · rcases List.mem_cons.mp hn with rfl | hn'
            · exact absurd hkey.symm hk
            · exact Or.inr ⟨n, hn', hkey⟩

theorem nodesDictOf_isSome (d : Diagram) (k : String) :
    (dictGet (nodesDictOf d) k).isSome ↔ ∃ n ∈ d.dnodes, n.key = k := by
  unfold nodesDictOf
  rw [foldl_insert_isSome]
  simp [dictGet]

/-- A marker chunk, once present in a backstory, persists along any
`BackGrow` evolution (appends happen only on the right). -/
theorem chunk_persists {a b : List (String × AgentRec)} (h : BackGrow a b)
    (k m : String) (ag : AgentRec) (hg : dictGet a k = some ag)
    (hc : ∃ pre post, ag.backstory = pre ++ (m ++ post)) :
    ∃ ag2, dictGet b k = some ag2 ∧ ∃ pre post, ag2.backstory = pre ++ (m ++ post) := by
  obtain ⟨s, hb⟩ := h k ag hg
  obtain ⟨pre, post, hbs⟩ := hc
  refine ⟨_, hb, pre, post ++ s, ?_⟩
  rw [hbs]
  rw [String.append_assoc, String.append_assoc]

theorem gedges_dst_iff (links : List DLink) (v : String) :
    (∃ e ∈ (buildGraph links).gedges, e.dst = v) ↔ ∃ l ∈ links, l.dst = v := by
  constructor
  · rintro ⟨e, he, hdst⟩
    obtain ⟨l, hl, _, hd⟩ := (mem_buildGraph_key links e.src v).mp ⟨e, he, rfl, hdst⟩
    exact ⟨l, hl, hd⟩
  · rintro ⟨l, hl, hdst⟩
    obtain ⟨e, he, _, hd⟩ := (mem_buildGraph_key links l.src v).mpr ⟨l, hl, rfl, hdst⟩
    exact ⟨e, he, hd⟩

theorem inDegree_zero_iff (links : List DLink) (v : String) :
    inDegree (buildGraph links) v = 0 ↔ ∀ l ∈ links, l.dst ≠ v := by
  unfold inDegree
  rw [List.length_eq_zero, List.filter_eq_nil_iff]
  constructor
  · intro h l hl hdst
    rcases (gedges_dst_iff links v).mpr ⟨l, hl, hdst⟩ with ⟨e, he, hd⟩
    exact h e he (by simp [hd])
  · intro h e he
    simp only [decide_eq_true_eq]
    intro hdst
    obtain ⟨l, hl, hd⟩ := (gedges_dst_iff links v).mp ⟨e, he, hdst⟩
    exact h l hl hd

theorem filter_length_eq_of_same_sets (l1 l2 : List String) (p q : String → Bool)
    (h1 : l1.Nodup) (h2 : l2.Nodup) (hmem : ∀ v, v ∈ l1 ↔ v ∈ l2)
    (hpq : ∀ v, p v = q v) :
    (l1.filter p).length = (l2.filter q).length := by
  have hp : (l1.filter p).Nodup := h1.filter p
  have hq : (l2.filter q).Nodup := h2.filter q
  rw [← List.toFinset_card_of_nodup hp, ← List.toFinset_card_of_nodup hq]
  congr 1
  apply Finset.ext
  intro v
  rw [List.mem_toFinset, List.mem_toFinset, List.mem_filter, List.mem_filter,
    hmem v, hpq v]

/-! ### The spec-side and link-side root counts (for C7) -/

/-- Modelled from the spec sentence, for refinement comparison: the number
of DECLARED nodes (distinct keys) with no incoming link, including
declared nodes appearing in no link at all. -/
def specDeclaredRootCount (d : Diagram) : Nat :=
  (((d.dnodes.map DNode.key).dedup).filter
    (fun k => d.dlinks.all (fun l => l.dst ≠ k))).length

/-- The number of distinct nodes mentioned by at least one link that have
no incoming link — what the code's `roots` actually counts. -/
def linkRootCount (d : Diagram) : Nat :=
  (((d.dlinks.map DLink.src ++ d.dlinks.map DLink.dst).dedup).filter
    (fun k => d.dlinks.all (fun l => l.dst ≠ k))).length

theorem roots_eq_linkRootCount (d : Diagram) :
    ((buildGraph d.dlinks).gnodes.filter
      (fun v => inDegree (buildGraph d.dlinks) v = 0)).length = linkRootCount d := by
  unfold linkRootCount
  apply filter_length_eq_of_same_sets
  · exact (buildGraph_wf d.dlinks).nodesNodup
  · exact List.nodup_dedup _
  · intro v
    rw [mem_buildGraph_gnodes, List.mem_dedup, List.mem_append, List.mem_map,
      List.mem_map]
    constructor
    · rintro ⟨l, hl, (rfl | rfl)⟩
      · exact Or.inl ⟨l, hl, rfl⟩
      · exact Or.inr ⟨l, hl, rfl⟩
    · rintro (⟨l, hl, rfl⟩ | ⟨l, hl, rfl⟩)
      · exact ⟨l, hl, Or.inl rfl⟩
      · exact ⟨l, hl, Or.inr rfl⟩
  · intro v
    have hiff : inDegree (buildGraph d.dlinks) v = 0 ↔
        (d.dlinks.all (fun l => l.dst ≠ v) = true) := by
      rw [inDegree_zero_iff, List.all_eq_true]
      constructor
      · intro h l hl
        simp only [decide_eq_true_eq]
        exact h l hl
      · intro h l hl
        have := h l hl
        simpa using this
    rw [Bool.eq_iff_iff, decide_eq_true_eq]
    exact hiff

/-! ### Concrete fixtures for counterexamples and witnesses -/

def wNodeA : DNode := ⟨"A", "R1", "", "initA"⟩

def wNodeB : DNode := ⟨"B", "R2", "", "initB"⟩

def wNodeC : DNode := ⟨"C", "R3", "", "initC"⟩

/-- No file-based enrichment (every node has `file = ""`). -/
def noEnrich : DNode → String := fun _ => ""

/-- Task executor that always succeeds with a fixed output. -/
def execConst (r : String) : TaskExec := fun _ _ _ => some r

/-- Task executor whose every invocation raises. -/
def execNone : TaskExec := fun _ _ _ => none

/-- Task executor keyed on the task description; unknown descriptions
raise. -/
def execTable (tbl : List (String × String)) : TaskExec := fun _ d _ => dictGet tbl d

/-- Node `A` with two outgoing edges (to `B` and to `C`). -/
def diagTwoFan : Diagram :=
  ⟨[wNodeA, wNodeB, wNodeC], [⟨"A", "B", "e1", ""⟩, ⟨"A", "C", "e2", ""⟩]⟩

/-- Chain `A → B → C`. -/
def diagChain : Diagram :=
  ⟨[wNodeA, wNodeB, wNodeC], [⟨"A", "B", "dAB", ""⟩, ⟨"B", "C", "dBC", ""⟩]⟩

/-- Two-node cycle `A → B → A`. -/
def diagCycle : Diagram :=
  ⟨[wNodeA, wNodeB], [⟨"A", "B", "d1", ""⟩, ⟨"B", "A", "d2", ""⟩]⟩

/-- An edge to the undeclared key `X`, reached after `A → B` executes. -/
def diagUndeclared : Diagram :=
  ⟨[wNodeA, wNodeB], [⟨"A", "B", "dAB", ""⟩, ⟨"B", "X", "dBX", ""⟩]⟩

/-- A single edge `A → B`. -/
def diagSingle : Diagram := ⟨[wNodeA, wNodeB], [⟨"A", "B", "dAB", ""⟩]⟩

/-- Edge `A → B` plus the isolated declared node `C`. -/
def diagIso : Diagram := ⟨[wNodeA, wNodeB, wNodeC], [⟨"A", "B", "dAB", ""⟩]⟩

/-! ### The claims -/

/-- Executor used in the C1 counterexample: fails on task description
`e1`, succeeds on `e2`. -/
def execC1 : TaskExec := execTable [("e2", "ok2")]

/-- C1 (counterexample): the claim says the task-executor is invoked at
most once per node, regardless of how many outgoing edges the node has.
On node `A` of `diagTwoFan` the first edge's invocation fails; the
failure is not cached, so the second edge invokes the executor for `A`
again — two invocations for `A` in a single run. -/
theorem c1_counterexample :
    ¬ (((executeProcess execC1 noEnrich diagTwoFan).final.calls.filter
        (fun c => c.agentKey = "A")).length ≤ 1) ∧
    ((executeProcess execC1 noEnrich diagTwoFan).final.calls.filter
      (fun c => c.agentKey = "A")).length = 2 := by
  decide

/-- C1 (amended): per node and per run, at most one SUCCESSFUL
task-executor invocation occurs — once an invocation for a node succeeds,
its result is cached and every later outgoing edge of that node reuses the
cache without invoking (second conjunct: a cache hit adds no call).  A
FAILED invocation is not cached, so a node may be invoked again on its
next outgoing edge. -/
theorem c1_memoization_amended (exec : TaskExec) (enrich : DNode → String)
    (d : Diagram) (k : String) :
    succCalls (executeProcess exec enrich d).final.calls k ≤ 1 ∧
    (∀ (st : RunState) (e : GEdge) (fa : AgentRec) (r : String),
      dictGet st.cache e.src = some r → (edgeBody exec st e fa).calls = st.calls) := by
  constructor
  · rcases executeProcess_final exec enrich d with h | h
    · rw [h]
      exact (cacheSound_init enrich d).le_one k
    · rw [h]
      exact (cacheSound_runNodes exec (nodesDictOf d) (buildGraph d.dlinks)
        (kahnOrder (buildGraph d.dlinks)) (initState enrich d)
        (cacheSound_init enrich d)).le_one k
  · intro st e fa r hc
    exact (edgeBody_reuse exec st e fa r hc).2.2.2.2

/-- C1 witness: the amended theorem evaluated on a concrete run and a
concrete cache-hit edge. -/
theorem c1_witness :
    succCalls (executeProcess (execConst "z") noEnrich diagSingle).final.calls "A" ≤ 1 ∧
    (edgeBody (execConst "z")
      ⟨[("A", ⟨"R1", "", "b"⟩)], [("A", "r0")], [], [], []⟩
      ⟨"A", "B", "dAB", ""⟩ ⟨"R1", "", "b"⟩).calls = [] :=
  ⟨(c1_memoization_amended (execConst "z") noEnrich diagSingle "A").1,
   (c1_memoization_amended (execConst "z") noEnrich diagSingle "A").2
     ⟨[("A", ⟨"R1", "", "b"⟩)], [("A", "r0")], [], [], []⟩
     ⟨"A", "B", "dAB", ""⟩ ⟨"R1", "", "b"⟩ "r0" (by decide)⟩

/-- C2 (confirmed): context propagation.  Situation: in the dispatch loop
the node `u` is dispatched; its outgoing edge list splits as
`es1 ++ e :: es2` with `e = (u → v)`; processing `es1` from state `stA`
reached `stM` without an exception; at `stM` the source has no cached
result and the task invocation for `e` succeeds with output `r`;
processing of `u`'s remaining edges completes at `stB`; the loop then
processes the dispatch-order segment `l21` lying strictly between `u` and
`v` (`v` follows `u` in the order by C4) reaching `stV`, the state in
which `v` is dispatched as a source.  Then `v`'s context contains the
appended `"\n\nRésultat de <u.role> : <output>"` chunk, and the whole
evolution from `stM` to `stV` only appended to backstories — it never
replaced previously accumulated content (the `BackGrow` conjunct). -/
theorem c2_context_propagation
    (exec : TaskExec) (nd : List (String × DNode)) (g : Graph)
    (stA stM stB stV : RunState) (u : String) (es1 es2 : List GEdge) (e : GEdge)
    (fa : AgentRec) (r : String) (l21 : List String)
    (hsplit : outEdges g u = es1 ++ e :: es2)
    (h1 : runEdges exec stA es1 = (stM, none))
    (hfa : dictGet stM.agents e.src = some fa)
    (hmiss : dictGet stM.cache e.src = none)
    (hx : exec fa.backstory e.description e.expected_output = some r)
    (h2 : runEdges exec stA (outEdges g u) = (stB, none))
    (h3 : runNodes exec nd g stB l21 = (stV, none)) :
    (∃ ag : AgentRec, dictGet stV.agents e.dst = some ag ∧
      ∃ pre post, ag.backstory = pre ++ (resultMarker fa.role r ++ post)) ∧
    BackGrow stM.agents stV.agents := by
  rw [hsplit] at h2
  rw [runEdges_append_ok exec es1 (e :: es2) stA stM h1] at h2
  cases hh : handleEdge exec stM e with
  | error m =>
      rw [runEdges_cons_err exec stM e es2 m hh] at h2
      exact absurd (congrArg Prod.snd h2) (by simp)
  | ok st' =>
      rw [runEdges_cons_ok exec stM e es2 st' hh] at h2
      have hgrow1 : BackGrow stM.agents st'.agents := backGrow_handleEdge exec stM e st' hh
      have hgrow2 : BackGrow st'.agents stB.agents := by
        have hg := backGrow_runEdges exec es2 st'
        rw [h2] at hg
        exact hg
      have hgrow3 : BackGrow stB.agents stV.agents := by
        have hg := backGrow_runNodes exec nd g l21 stB
        rw [h3] at hg
        exact hg
      have hgrow : BackGrow st'.agents stV.agents := backGrow_trans hgrow2 hgrow3
      -- identify st' as the successful edgeBody and extract the chunk
      unfold handleEdge at hh
      rw [hfa] at hh
      cases hdst : dictGet stM.agents e.dst with
      | none =>
          rw [hdst] at hh
          exact Except.noConfusion hh
      | some ta =>
          rw [hdst] at hh
          have heq : edgeBody exec stM e fa = st' := Except.ok.inj hh
          have hfields := edgeBody_success exec stM e fa r hmiss hx
          have hag : dictGet st'.agents e.dst =
              some ⟨ta.role, ta.goal,
                ta.backstory ++ (resultMarker fa.role r ++ resultMarker fa.role r)⟩ := by
            rw [← heq, hfields.1, dictGet_dictModify]
            rw [if_pos rfl, dictGet_dictModify, if_pos rfl, hdst]
            simp only [Option.map_some']
            rw [String.append_assoc]
          have hchunk : ∃ pre post,
              (ta.backstory ++ (resultMarker fa.role r ++ resultMarker fa.role r)) =
                pre ++ (resultMarker fa.role r ++ post) :=
            ⟨ta.backstory, resultMarker fa.role r, rfl⟩
          obtain ⟨ag2, hag2, hc2⟩ := chunk_persists hgrow e.dst (resultMarker fa.role r)
            _ hag hchunk
          exact ⟨⟨ag2, hag2, hc2⟩, backGrow_trans hgrow1 hgrow⟩

/-- C2 witness: concrete chain `A → B → C` with a constant-success
executor; `u = A`, `v = B`, the marker from `A`'s output is in `B`'s
context at the state in which `B` is dispatched as a source. -/
theorem c2_witness :
    (∃ ag : AgentRec,
      dictGet (runEdges (execConst "x") (initState noEnrich diagChain)
        (outEdges (buildGraph diagChain.dlinks) "A")).1.agents "B" = some ag ∧
      ∃ pre post, ag.backstory = pre ++ (resultMarker "R1" "x" ++ post)) ∧
    BackGrow (initState noEnrich diagChain).agents
      (runEdges (execConst "x") (initState noEnrich diagChain)
        (outEdges (buildGraph diagChain.dlinks) "A")).1.agents :=
  c2_context_propagation (execConst "x") (nodesDictOf diagChain)
    (buildGraph diagChain.dlinks)
    (initState noEnrich diagChain) (initState noEnrich diagChain)
    (runEdges (execConst "x") (initState noEnrich diagChain)
      (outEdges (buildGraph diagChain.dlinks) "A")).1
    (runEdges (execConst "x") (initState noEnrich diagChain)
      (outEdges (buildGraph diagChain.dlinks) "A")).1
    "A" [] [] ⟨"A", "B", "dAB", ""⟩ ⟨"R1", "", "initA"⟩ "x" []
    (by decide) rfl (by decide) (by decide) rfl (by decide) rfl

/-- C3 (confirmed): a diagram whose edge set contains a directed cycle
makes the run return `status = "error"` with the explanatory cycle
message, and the task-executor is invoked zero times (the call trace is
empty). -/
theorem c3_cycle_error (exec : TaskExec) (enrich : DNode → String) (d : Diagram)
    (c : List String) (hc : CycleIn (buildGraph d.dlinks) c) :
    (executeProcess exec enrich d).result.status = "error" ∧
    (executeProcess exec enrich d).result.message = cycleMsg ∧
    (executeProcess exec enrich d).final.calls = [] := by
  have hwf := buildGraph_wf d.dlinks
  have hk := not_kahnSucceeds_of_cycle _ hwf c hc
  rw [executeProcess_cycle exec enrich d hk]
  exact ⟨rfl, rfl, rfl⟩

/-- C3 witness: the two-node cycle `A → B, B → A`. -/
theorem c3_witness :
    CycleIn (buildGraph diagCycle.dlinks) ["A", "B"] ∧
    (executeProcess (execConst "x") noEnrich diagCycle).result.status = "error" ∧
    (executeProcess (execConst "x") noEnrich diagCycle).result.message = cycleMsg ∧
    (executeProcess (execConst "x") noEnrich diagCycle).final.calls = [] :=
  have hAB : hasEdge (buildGraph diagCycle.dlinks) "A" "B" :=
    ⟨⟨"A", "B", "d1", ""⟩, by decide, rfl, rfl⟩
  have hBA : hasEdge (buildGraph diagCycle.dlinks) "B" "A" :=
    ⟨⟨"B", "A", "d2", ""⟩, by decide, rfl, rfl⟩
  have hc : CycleIn (buildGraph diagCycle.dlinks) ["A", "B"] :=
    List.Chain.cons hAB (List.Chain.cons hBA List.Chain.nil)
  ⟨hc, c3_cycle_error (execConst "x") noEnrich diagCycle ["A", "B"] hc⟩

/-- C4 (confirmed): for every acyclic diagram the topological sort
succeeds, the dispatch order covers every node of the task graph, and for
every edge the source strictly precedes the target in the order used by
the execution loop. -/
theorem c4_topological_order (d : Diagram)
    (hacy : Acyclic (buildGraph d.dlinks)) :
    kahnSucceeds (buildGraph d.dlinks) = true ∧
    (∀ v ∈ (buildGraph d.dlinks).gnodes, v ∈ kahnOrder (buildGraph d.dlinks)) ∧
    ∀ e ∈ (buildGraph d.dlinks).gedges,
      Before (kahnOrder (buildGraph d.dlinks)) e.src e.dst := by
  have hwf := buildGraph_wf d.dlinks
  have hk := kahnSucceeds_of_acyclic _ hwf hacy
  refine ⟨hk, mem_kahnOrder_of_succeeds _ hwf hk, ?_⟩
  intro e he
  exact topo_before _ hwf hk e.src e.dst ⟨e, he, rfl, rfl⟩

/-- C4 witness: the chain `A → B → C` (acyclicity obtained from the
successful sort via the proved equivalence). -/
theorem c4_witness :
    kahnSucceeds (buildGraph diagChain.dlinks) = true ∧
    (∀ v ∈ (buildGraph diagChain.dlinks).gnodes, v ∈ kahnOrder (buildGraph diagChain.dlinks)) ∧
    ∀ e ∈ (buildGraph diagChain.dlinks).gedges,
      Before (kahnOrder (buildGraph diagChain.dlinks)) e.src e.dst :=
  c4_topological_order diagChain
    ((kahnSucceeds_iff_acyclic (buildGraph diagChain.dlinks)
      (buildGraph_wf diagChain.dlinks)).mp (by decide))

/-- C5 (confirmed): a failed task invocation is absorbed.  If the whole
dispatch loop completes without an escaping exception, the run returns
`status = "success"`; and at the failing edge itself the step leaves the
agents (in particular the downstream context), the result cache and the
transcript exactly unchanged — only the `nodeActive` broadcast and the
failed-call trace entry are added. -/
theorem c5_failure_tolerated (exec : TaskExec) (enrich : DNode → String)
    (d : Diagram) (st1 : RunState)
    (hk : kahnSucceeds (buildGraph d.dlinks) = true)
    (hr : runNodes exec (nodesDictOf d) (buildGraph d.dlinks) (initState enrich d)
      (kahnOrder (buildGraph d.dlinks)) = (st1, none)) :
    (executeProcess exec enrich d).result.status = "success" ∧
    ∀ (st : RunState) (e : GEdge) (fa : AgentRec),
      dictGet st.cache e.src = none →
      exec fa.backstory e.description e.expected_output = none →
      (edgeBody exec st e fa).agents = st.agents ∧
      (edgeBody exec st e fa).cache = st.cache ∧
      (edgeBody exec st e fa).results = st.results ∧
      (edgeBody exec st e fa).events = st.events ++ [.active e.src e.description] := by
  constructor
  · rw [executeProcess_ok exec enrich d st1 hk hr]
  · intro st e fa hmiss hfail
    obtain ⟨ha, hc, hres, hev, _⟩ := edgeBody_fail exec st e fa hmiss hfail
    exact ⟨ha, hc, hres, hev⟩

/-- C5 witness: single edge `A → B` with an always-failing executor; the
run reports success and the failing step changed no context, cache or
transcript. -/
theorem c5_witness :
    (executeProcess execNone noEnrich diagSingle).result.status = "success" ∧
    ∀ (st : RunState) (e : GEdge) (fa : AgentRec),
      dictGet st.cache e.src = none →
      execNone fa.backstory e.description e.expected_output = none →
      (edgeBody execNone st e fa).agents = st.agents ∧
      (edgeBody execNone st e fa).cache = st.cache ∧
      (edgeBody execNone st e fa).results = st.results ∧
      (edgeBody execNone st e fa).events = st.events ++ [.active e.src e.description] :=
  c5_failure_tolerated execNone noEnrich diagSingle
    (runNodes execNone (nodesDictOf diagSingle) (buildGraph diagSingle.dlinks)
      (initState noEnrich diagSingle) (kahnOrder (buildGraph diagSingle.dlinks))).1
    (by decide) (by decide)

/-- C6 (counterexample): the claim says a diagram with an edge whose
endpoint is undeclared is rejected before any invocation, with zero
invocations.  In `diagUndeclared` the edge `B → X` references the
undeclared key `X`, yet the run first executes the task of edge `A → B`
(one invocation) and only fails when the dispatch loop reaches the
offending lookup. -/
theorem c6_counterexample :
    (∃ l ∈ diagUndeclared.dlinks, ∀ n ∈ diagUndeclared.dnodes, n.key ≠ l.dst) ∧
    (executeProcess (execConst "out") noEnrich diagUndeclared).result.status = "error" ∧
    (executeProcess (execConst "out") noEnrich diagUndeclared).final.calls.length = 1 := by
  decide

/-- C6 (amended): a diagram in which some edge references an undeclared
node key always makes the run return `status = "error"` (the `KeyError`
raised at the agent/node lookup is caught by the outer handler, or the
cycle check fails first), but the rejection happens only when the
dispatch loop reaches the undeclared key — task-executor invocations for
edges processed earlier in the dispatch order may already have occurred. -/
theorem c6_undeclared_endpoint_amended (exec : TaskExec) (enrich : DNode → String)
    (d : Diagram) (k : String)
    (hlink : ∃ l ∈ d.dlinks, l.src = k ∨ l.dst = k)
    (hundecl : ∀ n ∈ d.dnodes, n.key ≠ k) :
    (executeProcess exec enrich d).result.status = "error" := by
  by_cases hk : kahnSucceeds (buildGraph d.dlinks) = true
  · cases hr : runNodes exec (nodesDictOf d) (buildGraph d.dlinks) (initState enrich d)
      (kahnOrder (buildGraph d.dlinks)) with
    | mk st o =>
        cases o with
        | some m =>
            rw [executeProcess_err exec enrich d st m hk hr]
            rfl
        | none =>
            exfalso
            have hkg : k ∈ (buildGraph d.dlinks).gnodes := by
              rw [mem_buildGraph_gnodes]
              obtain ⟨l, hl, h⟩ := hlink
              rcases h with h | h
              · exact ⟨l, hl, Or.inl h.symm⟩
              · exact ⟨l, hl, Or.inr h.symm⟩
            have hkord : k ∈ kahnOrder (buildGraph d.dlinks) :=
              mem_kahnOrder_of_succeeds _ (buildGraph_wf d.dlinks) hk k hkg
            have hsome := runNodes_none_lookup exec (nodesDictOf d) (buildGraph d.dlinks)
              (kahnOrder (buildGraph d.dlinks)) (initState enrich d) st hr k hkord
            rw [nodesDictOf_isSome] at hsome
            obtain ⟨n, hn, hnk⟩ := hsome
            exact hundecl n hn hnk
  · rw [executeProcess_cycle exec enrich d hk]
    rfl

/-- C6 witness: the amended theorem at `diagUndeclared` and key `X`. -/
theorem c6_witness :
    (executeProcess (execConst "out") noEnrich diagUndeclared).result.status = "error" :=
  c6_undeclared_endpoint_amended (execConst "out") noEnrich diagUndeclared "X"
    ⟨⟨"B", "X", "dBX", ""⟩, by decide, Or.inr rfl⟩ (by decide)

/-- C7 (counterexample): the claim says `branches_count` equals the number
of DECLARED nodes with no incoming edges, including declared nodes that
appear in no edge.  In `diagIso` the declared nodes with no incoming link
are `A` and `C` (count 2), but the run reports `branches_count = 1`: the
isolated node `C` is never added to the `networkx` graph, so it is not
counted as a root. -/
theorem c7_counterexample :
    (executeProcess (execConst "z") noEnrich diagIso).result.status = "success" ∧
    (executeProcess (execConst "z") noEnrich diagIso).result.branches_count = 1 ∧
    specDeclaredRootCount diagIso = 2 ∧
    ¬ ((executeProcess (execConst "z") noEnrich diagIso).result.branches_count =
        specDeclaredRootCount diagIso) := by
  decide

/-- C7 (amended): for every successful run, `branches_count` equals the
number of distinct nodes that appear as an endpoint of at least one link
and have no incoming link; declared nodes that appear in no link are not
counted. -/
theorem c7_branches_amended (exec : TaskExec) (enrich : DNode → String) (d : Diagram)
    (h : (executeProcess exec enrich d).result.status = "success") :
    (executeProcess exec enrich d).result.branches_count = linkRootCount d := by
  obtain ⟨_, _, hbr⟩ := executeProcess_success_inv exec enrich d h
  rw [hbr, roots_eq_linkRootCount]

/-- C7 witness: the amended count on `diagIso` (both sides equal 1). -/
theorem c7_witness :
    (executeProcess (execConst "z") noEnrich diagIso).result.branches_count =
      linkRootCount diagIso :=
  c7_branches_amended (execConst "z") noEnrich diagIso (by decide)

/-- C8 (code bug, evaluated at the failing input): on the successful edge
`A → B` of `diagSingle` the engine stores the cache entry for `A` and
appends exactly one formatted transcript entry, but appends the
`"\n\nRésultat de <role> : <output>"` text to `B`'s context TWICE — the
`to_agent.backstory +=` statement is duplicated at lines 595 and 610 of
the source, while the claim (and the reuse branch of the same code, line
565) call for a single append per successful edge. -/
theorem c8_double_append :
    dictGet (executeProcess (execConst "z") noEnrich diagSingle).final.cache "A" =
      some "z" ∧
    (executeProcess (execConst "z") noEnrich diagSingle).final.results =
      [formattedResult "R1" "dAB" "z"] ∧
    dictGet (executeProcess (execConst "z") noEnrich diagSingle).final.agents "B" =
      some ⟨"R2", "", ("initB" ++ resultMarker "R1" "z") ++ resultMarker "R1" "z"⟩ := by
  decide

/-- C9 (counterexample): the claim says a `nodeInactive(n)` event is
published after every processed edge of `n`, regardless of outcome.  With
a failing invocation on edge `A → B`, the event log ends with the
`nodeActive` broadcast for `A`: the inactive broadcast (lines 596-601)
sits in the success path of the `try`, so the exception skips it and `A`
is left active. -/
theorem c9_counterexample :
    (executeProcess execNone noEnrich diagSingle).final.events =
      [Event.inactive "A", Event.inactive "B", Event.active "A" "dAB"] := by
  decide

/-- C9 (amended): `nodeInactive(n)` is published after an edge of `n`
exactly when the edge reused a cached result or its invocation succeeded;
after a failed invocation the only event added by the edge is the
`nodeActive` one, and the node remains active. -/
theorem c9_inactive_amended (exec : TaskExec) (st : RunState) (e : GEdge)
    (fa : AgentRec) :
    (∀ r, dictGet st.cache e.src = some r →
      (edgeBody exec st e fa).events =
        (st.events ++ [.active e.src ("Réutilisation du résultat de " ++ fa.role)]) ++
          [.inactive e.src]) ∧
    (∀ r, dictGet st.cache e.src = none →
      exec fa.backstory e.description e.expected_output = some r →
      (edgeBody exec st e fa).events =
        (st.events ++ [.active e.src e.description]) ++ [.inactive e.src]) ∧
    (dictGet st.cache e.src = none →
      exec fa.backstory e.description e.expected_output = none →
      (edgeBody exec st e fa).events = st.events ++ [.active e.src e.description]) := by
  refine ⟨?_, ?_, ?_⟩
  · intro r hc
    exact (edgeBody_reuse exec st e fa r hc).2.2.2.1
  · intro r hc hx
    exact (edgeBody_success exec st e fa r hc hx).2.2.2.1
  · intro hc hx
    exact (edgeBody_fail exec st e fa hc hx).2.2.2.1

/-- C9 witness: the amended theorem's success branch at a concrete edge. -/
theorem c9_witness :
    (edgeBody (execConst "z") (initState noEnrich diagSingle)
      ⟨"A", "B", "dAB", ""⟩ ⟨"R1", "", "b0"⟩).events =
      ((initState noEnrich diagSingle).events ++ [Event.active "A" "dAB"]) ++
        [Event.inactive "A"] :=
  (c9_inactive_amended (execConst "z") (initState noEnrich diagSingle)
    ⟨"A", "B", "dAB", ""⟩ ⟨"R1", "", "b0"⟩).2.1 "z" (by decide) rfl

/-- C10 (confirmed): the entry point never propagates an exception: the
returned dictionary always has status `success` or `error`, and whenever
the dispatch loop raises (the only raising phase of the model — e.g. a
`KeyError` on a malformed edge endpoint), the exception is caught and
returned as `{status: "error", message: str(e)}`. -/
theorem c10_no_propagation (exec : TaskExec) (enrich : DNode → String) (d : Diagram) :
    ((executeProcess exec enrich d).result.status = "success" ∨
      (executeProcess exec enrich d).result.status = "error") ∧
    (∀ st m, kahnSucceeds (buildGraph d.dlinks) = true →
      runNodes exec (nodesDictOf d) (buildGraph d.dlinks) (initState enrich d)
        (kahnOrder (buildGraph d.dlinks)) = (st, some m) →
      executeProcess exec enrich d = ⟨errorResult m, st⟩ ∧
      (executeProcess exec enrich d).result.status = "error" ∧
      (executeProcess exec enrich d).result.message = m) := by
  constructor
  · exact executeProcess_status exec enrich d
  · intro st m hk hr
    have he := executeProcess_err exec enrich d st m hk hr
    refine ⟨he, ?_, ?_⟩ <;> rw [he] <;> rfl

/-- C10 witness: the undeclared-endpoint `KeyError` (`str(e) = "'X'"`) is
caught and surfaced as the error result. -/
theorem c10_witness :
    executeProcess (execConst "out") noEnrich diagUndeclared =
      ⟨errorResult (keyErr "X"),
        (runNodes (execConst "out") (nodesDictOf diagUndeclared)
          (buildGraph diagUndeclared.dlinks) (initState noEnrich diagUndeclared)
          (kahnOrder (buildGraph diagUndeclared.dlinks))).1⟩ ∧
    (executeProcess (execConst "out") noEnrich diagUndeclared).result.status = "error" ∧
    (executeProcess (execConst "out") noEnrich diagUndeclared).result.message = keyErr "X" :=
  (c10_no_propagation (execConst "out") noEnrich diagUndeclared).2
    (runNodes (execConst "out") (nodesDictOf diagUndeclared)
      (buildGraph diagUndeclared.dlinks) (initState noEnrich diagUndeclared)
      (kahnOrder (buildGraph diagUndeclared.dlinks))).1
    (keyErr "X") (by decide) (by decide)
